/-
  Verification of the PotionTracker backend against its specification.

  Shallow embedding conventions:
  * Python floats are modelled as rationals (ℚ); `float('inf')` as `⊤ : WithTop ℚ`.
  * Timestamps are rationals measured in hours; `timedelta(hours=h)` is `+ h`,
    `timedelta(minutes=m)` is `+ m / 60`, and `isoformat`/`fromisoformat` are the
    identity on this representation.
  * Python dicts are association lists with Python's insertion semantics
    (overwrite keeps the original key position; lookups scan for the key).
  * The floating-point Haversine great-circle helpers
    (`haversine_distance` in route_optimization.py, `calculate_distance` in
    scheduling.py — the same closed form over `math.sin`/`cos`/`atan2`) are
    modelled as an explicit function parameter `hav : ℚ → ℚ → ℚ → ℚ → ℚ`,
    since trigonometric float arithmetic has no exact rational embedding.
    Every theorem quantifies over `hav` or fixes a concrete instance.
-/
import Mathlib

set_option maxHeartbeats 1000000
set_option maxRecDepth 10000

/-! # Association-list model of Python dicts -/

/-- Lookup in a Python dict modelled as an association list. -/
def alLookup {α : Type} (l : List (String × α)) (k : String) : Option α :=
  match l with
  | [] => none
  | (k', v) :: rest => if k' = k then some v else alLookup rest k

/-- `d[k] = v` on a Python dict: overwrite in place if the key exists
(keeping its position), otherwise append at the end. -/
def alInsert {α : Type} (l : List (String × α)) (k : String) (v : α) :
    List (String × α) :=
  match l with
  | [] => [(k, v)]
  | (k', v') :: rest =>
    if k' = k then (k', v) :: rest else (k', v') :: alInsert rest k v

/-- Key membership in a Python dict (`k in d`). -/
def alMem {α : Type} (l : List (String × α)) (k : String) : Bool :=
  (alLookup l k).isSome

/-! # Telemetry ingestion (src/backend/tcp_server.py)

The live-reading store `TCPServer.latest_data`. -/

structure LatestData where
  taken_liters : ℚ
  reported_liters : ℚ
  discrepancy : ℚ
  timestamp : Option ℚ
  connected : Bool
deriving Repr, DecidableEq

/-- The initial `latest_data` created in `TCPServer.__init__`. -/
def initialLatestData : LatestData :=
  { taken_liters := 0, reported_liters := 0, discrepancy := 0,
    timestamp := none, connected := false }

/-- `TCPServer.calculate_discrepancy`: taken − reported. -/
def calculate_discrepancy (taken reported : ℚ) : ℚ :=
  taken - reported

/-- The observable content of one received packet, after the byte-level
decoding steps that `process_client_data` performs:
* `notUtf8` — `data.decode('utf-8')` raises `UnicodeDecodeError`;
* `jsonObj` — the text parses as a JSON object; the two fields hold the
  numeric values of `taken_liters`/`reported_liters` when present
  (`dict.get` with default `0` covers `none`);
* `plainText` — the text is not JSON; `parts` holds the result of float-parsing
  each comma-separated fragment (`none` = `float(...)` raises `ValueError`). -/
inductive Packet where
  | notUtf8 : Packet
  | jsonObj (taken reported : Option ℚ) : Packet
  | plainText (parts : List (Option ℚ)) : Packet
deriving Repr, DecidableEq

/-- `TCPServer.process_client_data`, returning the updated `latest_data`
together with the list of messages sent back on the client socket
(the source sends none: every branch only logs and stores). -/
def process_client_data (now : ℚ) (latest : LatestData) (p : Packet) :
    LatestData × List String :=
  match p with
  | .notUtf8 => (latest, [])
  | .jsonObj taken reported =>
    let taken_liters := taken.getD 0
    let reported_liters := reported.getD 0
    let discrepancy := calculate_discrepancy taken_liters reported_liters
    ({ taken_liters := taken_liters, reported_liters := reported_liters,
       discrepancy := discrepancy, timestamp := some now, connected := true }, [])
  | .plainText parts =>
    match parts with
    | [some taken_liters, some reported_liters] =>
      let discrepancy := calculate_discrepancy taken_liters reported_liters
      ({ taken_liters := taken_liters, reported_liters := reported_liters,
         discrepancy := discrepancy, timestamp := some now, connected := true }, [])
    | _ => (latest, [])

/-- One iteration of the receive loop in `TCPServer.handle_client`: the events
a blocked `recv` can produce. -/
inductive RecvEvent where
  | packet (p : Packet) : RecvEvent
  | closed : RecvEvent
  | timedOut : RecvEvent
deriving Repr, DecidableEq

/-- One pass through the `while self.running` body of `handle_client`:
returns the updated store and whether the handler keeps looping.
A data packet is processed and the loop continues; a zero-length read breaks;
a socket timeout continues. -/
def handle_client_step (now : ℚ) (latest : LatestData) (ev : RecvEvent) :
    LatestData × Bool :=
  match ev with
  | .packet p => ((process_client_data now latest p).1, true)
  | .closed => (latest, false)
  | .timedOut => (latest, true)

/-- A packet is malformed in the sense of the spec's §8 bullet: either the
bytes are not UTF-8, or the text is non-JSON and is not a
`"<float>,<float>"` pair. -/
def MalformedPacket : Packet → Prop
  | .notUtf8 => True
  | .jsonObj _ _ => False
  | .plainText parts =>
    ∀ a b : ℚ, parts ≠ [some a, some b]

instance : DecidablePred MalformedPacket := by
  intro p
  cases p with
  | notUtf8 => exact .isTrue trivial
  | jsonObj t r => exact .isFalse (fun h => h)
  | plainText parts =>
    unfold MalformedPacket
    match parts with
    | [] => exact .isTrue (by intro a b h; cases h)
    | [x] => exact .isTrue (by intro a b h; cases h)
    | [x, y] =>
      match x, y with
      | some a, some b => exact .isFalse (fun h => h a b rfl)
      | some a, none => exact .isTrue (by intro a' b' h; cases h)
      | none, some b => exact .isTrue (by intro a' b' h; cases h)
      | none, none => exact .isTrue (by intro a' b' h; cases h)
    | x :: y :: z :: rest => exact .isTrue (by intro a b h; cases h)

/-! ## Claims C3 and C4 -/

/--
C3 (counterexample): the claim asserts the server replies to a well-formed
JSON telemetry request with an acknowledgment
`{"status": "received", "discrepancy": <value>}`, but `process_client_data`
never writes to the client socket: on the concrete input
`{"taken_liters": 12.5, "reported_liters": 10.0}` the list of sent messages
is empty, so no acknowledgment (and in particular no message mentioning a
status) is sent.
-/
theorem C3_counterexample :
    (process_client_data 0 initialLatestData
        (.jsonObj (some (25/2)) (some 10))).2 = [] ∧
      ∀ ack : String, ack ∉ (process_client_data 0 initialLatestData
        (.jsonObj (some (25/2)) (some 10))).2 := by
  constructor
  · rfl
  · intro ack h
    simp [process_client_data] at h

/--
C3 (amended): for every well-formed JSON telemetry request the server stores
a discrepancy equal to `taken − reported` in `latest_data` (marking the
connection live and stamping the time), and sends no reply at all; malformed
input is logged and skipped, likewise without a reply.  In particular
`{"taken_liters": 12.5, "reported_liters": 10.0}` stores exactly 2.5.
-/
theorem C3_amended (now : ℚ) (latest : LatestData) (taken reported : ℚ) :
    process_client_data now latest (.jsonObj (some taken) (some reported)) =
      ({ taken_liters := taken, reported_liters := reported,
         discrepancy := taken - reported, timestamp := some now,
         connected := true }, []) ∧
      ∀ p : Packet, MalformedPacket p →
        process_client_data now latest p = (latest, []) := by
  constructor
  · rfl
  · intro p hm
    cases p with
    | notUtf8 => rfl
    | jsonObj t r => exact absurd hm (fun h => h)
    | plainText parts =>
      unfold MalformedPacket at hm
      unfold process_client_data
      match parts, hm with
      | [], _ => rfl
      | [some a], _ => rfl
      | [none], _ => rfl
      | [some a, some b], hm => exact absurd rfl (hm a b)
      | [some a, none], _ => rfl
      | [none, some b], _ => rfl
      | [none, none], _ => rfl
      | some a :: some b :: z :: rest, _ => rfl
      | some a :: none :: z :: rest, _ => rfl
      | none :: y :: z :: rest, _ => rfl

/-- C3 (amended, witness): the concrete telemetry example — taken 12.5,
reported 10.0 — stores a discrepancy of exactly 2.5 and sends nothing. -/
theorem C3_amended_witness :
    process_client_data 0 initialLatestData
        (.jsonObj (some (25/2)) (some 10)) =
      ({ taken_liters := 25/2, reported_liters := 10, discrepancy := 5/2,
         timestamp := some 0, connected := true }, []) := by
  have h := C3_amended 0 initialLatestData (25/2) 10
  rw [h.1]
  norm_num

/--
C4: processing any malformed telemetry packet — non-UTF-8 bytes, or non-JSON
text that is not a `"<float>,<float>"` pair — leaves the prior live-reading
state `latest_data` unchanged, and the per-connection handler loop continues
rather than terminating.  (The accept loop of the listener runs in a separate
thread and never sees packet contents, so packet processing cannot stop it;
the formal statement covers the handler, which is where packets are handled.)
-/
theorem C4_malformed_preserves_state (now : ℚ) (latest : LatestData)
    (p : Packet) (hm : MalformedPacket p) :
    handle_client_step now latest (.packet p) = (latest, true) := by
  have h := (C3_amended now latest 0 0).2 p hm
  simp [handle_client_step, h]

/-- C4 (witness): the concrete malformed packet `"garbage,text,x"`
(three comma fragments, none float-parsable) is skipped: state unchanged,
handler keeps looping. -/
theorem C4_malformed_preserves_state_witness :
    handle_client_step 0 initialLatestData
        (.packet (.plainText [none, none, none])) =
      (initialLatestData, true) := by
  apply C4_malformed_preserves_state
  intro a b h
  cases h

/-! # Rate estimation and forecasting (src/backend/utils/forecasting.py)

A historical reading row of the dataframe built by `fetch_historical_data`
(which returns the frame sorted by timestamp).  Timestamps are rationals in
hours.  `calculate_brew_rate` re-sorts defensively; following the Reading data
model ("ordered by timestamp per site") the embedding takes the frame in
timestamp order, and theorems that need it state the ordering hypothesis. -/

structure Reading where
  timestamp : ℚ
  cauldron_id : String
  level : ℚ
deriving Repr, DecidableEq

/-- Largest timestamp of a series (`df['timestamp'].max()`); 0 on an empty
series (the source only evaluates it on series of length ≥ 2). -/
def tsMax (l : List (ℚ × ℚ)) : ℚ :=
  match l with
  | [] => 0
  | x :: xs => (xs.map Prod.fst).foldl max x.1

/-- Smallest timestamp of a series (`df['timestamp'].min()`). -/
def tsMin (l : List (ℚ × ℚ)) : ℚ :=
  match l with
  | [] => 0
  | x :: xs => (xs.map Prod.fst).foldl min x.1

/-- Closed-form ordinary-least-squares slope of `y` against `x` over a list of
`(x, y)` points: `(n·Σxy − Σx·Σy) / (n·Σx² − (Σx)²)`.  This is the line the
source fits with `sklearn.linear_model.LinearRegression` (spec §1 makes exact
replication of the library's internals a non-goal; on the degenerate series
whose `x` values are all equal, the library's minimum-norm solution and the
rational convention `q / 0 = 0` both yield slope 0). -/
def olsSlope (pts : List (ℚ × ℚ)) : ℚ :=
  let n : ℚ := pts.length
  let sx := (pts.map Prod.fst).sum
  let sy := (pts.map Prod.snd).sum
  let sxy := (pts.map (fun p => p.1 * p.2)).sum
  let sxx := (pts.map (fun p => p.1 * p.1)).sum
  (n * sxy - sx * sy) / (n * sxx - sx * sx)

/-- Helper for the run-splitting loop of `calculate_brew_rate`: `cur` is the
current section accumulated in reverse, `last` the level of the previous row.
A row whose level is `≥` the previous level extends the current section;
a decrease closes it and starts a new section at that row. -/
def runsAux (cur : List (ℚ × ℚ)) (last : ℚ) : List (ℚ × ℚ) → List (List (ℚ × ℚ))
  | [] => [cur.reverse]
  | x :: xs =>
    if last ≤ x.2 then runsAux (x :: cur) x.2 xs
    else cur.reverse :: runsAux [x] x.2 xs

/-- Maximal contiguous non-decreasing runs of a series, in order. -/
def nonDecreasingRuns : List (ℚ × ℚ) → List (List (ℚ × ℚ))
  | [] => []
  | x :: xs => runsAux [x] x.2 xs

/-- The `increasing_sections` index list of `calculate_brew_rate`, as the rows
it selects (runs of length < 2 are discarded; kept runs are concatenated in
order). -/
def increasingSections (l : List (ℚ × ℚ)) : List (ℚ × ℚ) :=
  ((nonDecreasingRuns l).filter (fun s => 2 ≤ s.length)).flatten

/-- The body of the progressive-widening window loop of `calculate_brew_rate`:
`data` is this cauldron's `(timestamp, level)` series in timestamp order.
For each window: keep the last `w` hours (falling back to the last
`min(1000, len)` rows when fewer than 2 remain), convert timestamps to hours
since the window's first timestamp, select the increasing sections, and fit
the OLS line; a positive slope is returned, otherwise the next window is
tried.  Exhausting all windows yields 0. -/
def brewRateLoop (data : List (ℚ × ℚ)) : List ℚ → ℚ
  | [] => 0
  | w :: ws =>
    let cutoff := tsMax data - w
    let recent0 := data.filter (fun r => cutoff ≤ r.1)
    let recent := if recent0.length < 2
      then data.drop (data.length - min 1000 data.length) else recent0
    if recent.length < 2 then brewRateLoop data ws
    else
      let t0 := tsMin recent
      let hrs := recent.map (fun r => (r.1 - t0, r.2))
      let secs := increasingSections hrs
      if 2 ≤ secs.length then
        let brew_rate := max 0 (olsSlope secs)
        if 0 < brew_rate then brew_rate else brewRateLoop data ws
      else brewRateLoop data ws

/-- One cauldron's `(timestamp, level)` series, in frame order
(`df[df['cauldron_id'] == cauldron_id]`). -/
def cauldronSeries (df : List Reading) (cid : String) : List (ℚ × ℚ) :=
  (df.filter (fun r => r.cauldron_id = cid)).map (fun r => (r.timestamp, r.level))

/-- `calculate_brew_rate(df, cauldron_id)`: average brew rate in liters/hour,
via linear regression on increasing sections of the recent window. -/
def calculate_brew_rate (df : List Reading) (cid : String) : ℚ :=
  let cauldron_data := cauldronSeries df cid
  if cauldron_data.length < 2 then 0
  else brewRateLoop cauldron_data [24, 48, 72, 168, 336]

/-- The spec-side quantity of §8: the closed-form OLS slope of level against
elapsed time over the WHOLE series of one cauldron (elapsed hours since the
series' first timestamp). -/
def wholeSeriesSlope (df : List Reading) (cid : String) : ℚ :=
  let series := cauldronSeries df cid
  olsSlope (series.map (fun r => (r.1 - tsMin series, r.2)))

/-! ## Forecaster -/

/-- External cauldron reference record (id, coordinates, capacity);
`max_volume = none` models a dict without that key. -/
structure Cauldron where
  id : String
  latitude : ℚ
  longitude : ℚ
  max_volume : Option ℚ
deriving Repr, DecidableEq

structure ForecastPoint where
  timestamp : ℚ
  level : ℚ
  percentage : ℚ
deriving Repr, DecidableEq

structure Forecast where
  cauldron_id : String
  current_level : ℚ
  max_volume : ℚ
  current_percentage : ℚ
  brew_rate_liters_per_hour : ℚ
  forecast_points : List ForecastPoint
  time_to_80_percent : Option ℚ
  time_to_100_percent : Option ℚ
  at_risk_12h : Bool
deriving Repr, DecidableEq

instance {ε α : Type} [DecidableEq ε] [DecidableEq α] :
    DecidableEq (Except ε α) := fun a b =>
  match a, b with
  | .ok x, .ok y =>
    if h : x = y then .isTrue (by rw [h]) else .isFalse (by simp [h])
  | .error x, .error y =>
    if h : x = y then .isTrue (by rw [h]) else .isFalse (by simp [h])
  | .ok _, .error _ => .isFalse (by simp)
  | .error _, .ok _ => .isFalse (by simp)

/-- The epsilon of `forecast_levels`'s rate test (`1e-10`). -/
def rateEpsilon : ℚ := 1 / 10 ^ 10

/-- The `time_to_80`/`time_to_100` computation of `forecast_levels` under the
`brew_rate > 1e-10` test: remaining volume to 80 % (resp. 100 %) divided by
the rate when still positive, otherwise "now" (already past); below the
epsilon both are `None` at this stage. -/
def timesToThresholds (now brew_rate max_volume current_level : ℚ) :
    Option ℚ × Option ℚ :=
  if rateEpsilon < brew_rate then
    let remaining_to_80 := max_volume * (8 / 10) - current_level
    let remaining_to_100 := max_volume - current_level
    (if 0 < remaining_to_80 then some (now + remaining_to_80 / brew_rate)
      else some now,
     if 0 < remaining_to_100 then some (now + remaining_to_100 / brew_rate)
      else some now)
  else (none, none)

/-- The final `time_to_80` of one forecast record: the thresholded value, with
the fallback "no brew rate but already at 80 %" rewrite that sets it to now. -/
def timeTo80Resolved (now brew_rate max_volume current_level
    current_percentage : ℚ) : Option ℚ :=
  let tt := timesToThresholds now brew_rate max_volume current_level
  if tt.1 = none ∧ 80 ≤ current_percentage then some now else tt.1

/-- The per-cauldron body of `forecast_levels`.  `.error ()` models the
`ZeroDivisionError` that the unguarded forecast-point percentage
`(predicted_level / max_volume) * 100` raises when `max_volume` is zero
(the `current_percentage` computations, by contrast, are guarded by
`if max_volume > 0`). -/
def forecastCauldron (df : List Reading) (now : ℚ) (forecast_hours : ℕ)
    (cid : String) (info : Cauldron) : Except Unit Forecast :=
  let max_volume := info.max_volume.getD 1000
  let cauldron_data := df.filter (fun r => r.cauldron_id = cid)
  let current_level := match cauldron_data.getLast? with
    | some r => r.level
    | none => 0
  let brew_rate := calculate_brew_rate df cid
  if max_volume = 0 then .error () else
  let forecast_points := (List.range (forecast_hours + 1)).map (fun hour : ℕ =>
    let predicted_level := min (current_level + brew_rate * (hour : ℚ)) max_volume
    { timestamp := now + (hour : ℚ), level := predicted_level,
      percentage := predicted_level / max_volume * 100 : ForecastPoint })
  let current_percentage := if 0 < max_volume
    then current_level / max_volume * 100 else 0
  let tt := timesToThresholds now brew_rate max_volume current_level
  .ok { cauldron_id := cid, current_level := current_level,
        max_volume := max_volume, current_percentage := current_percentage,
        brew_rate_liters_per_hour := brew_rate,
        forecast_points := forecast_points,
        time_to_80_percent :=
          timeTo80Resolved now brew_rate max_volume current_level
            current_percentage,
        time_to_100_percent := tt.2,
        at_risk_12h := match tt.2 with
          | some t => decide (t - now < 12)
          | none => false }

/-- `forecast_levels(df, cauldron_info, forecast_hours)`: one forecast per
entry of the `cauldron_info` dict, in insertion order; an uncaught
`ZeroDivisionError` aborts the whole call. -/
def forecast_levels (df : List Reading) (cauldron_info : List (String × Cauldron))
    (now : ℚ) (forecast_hours : ℕ) : Except Unit (List Forecast) :=
  cauldron_info.mapM (fun e => forecastCauldron df now forecast_hours e.1 e.2)

/-- `get_forecast(cauldron_info)`: empty frame yields `[]`, otherwise a
24-hour forecast. -/
def get_forecast (df : List Reading) (cauldron_info : List (String × Cauldron))
    (now : ℚ) : Except Unit (List Forecast) :=
  if df.isEmpty then .ok [] else forecast_levels df cauldron_info now 24

/-! ## Basic facts about the brew rate -/

/-- Every value `brewRateLoop` can return is non-negative. -/
theorem brewRateLoop_nonneg (data : List (ℚ × ℚ)) :
    ∀ ws : List ℚ, 0 ≤ brewRateLoop data ws := by
  intro ws
  induction ws with
  | nil => simp [brewRateLoop]
  | cons w ws ih =>
    rw [brewRateLoop]
    dsimp only
    split_ifs <;> first
      | exact ih
      | exact le_max_left 0 _

/-- The brew rate of `calculate_brew_rate` is clamped non-negative. -/
theorem calculate_brew_rate_nonneg (df : List Reading) (cid : String) :
    0 ≤ calculate_brew_rate df cid := by
  rw [calculate_brew_rate]
  split_ifs
  · exact le_refl 0
  · exact brewRateLoop_nonneg _ _

/-! ## Claim C10 -/

/--
C10: `forecast_levels` is total exactly under the precondition that every
cauldron's `max_volume` (with the dict default 1000) is nonzero: under that
precondition the whole call completes without a `ZeroDivisionError`, and
conversely any single entry with `max_volume = 0` makes its unguarded
forecast-point percentage `(predicted_level / max_volume) * 100` raise
(the `current_percentage` computations are guarded, the per-point one is not).
-/
theorem C10_total_iff_max_volume_nonzero (df : List Reading)
    (cauldron_info : List (String × Cauldron)) (now : ℚ) (forecast_hours : ℕ)
    (hpre : ∀ e ∈ cauldron_info, e.2.max_volume.getD 1000 ≠ 0) :
    (∃ fs, forecast_levels df cauldron_info now forecast_hours = .ok fs) ∧
      ∀ cid : String, ∀ info : Cauldron, info.max_volume.getD 1000 = 0 →
        forecastCauldron df now forecast_hours cid info = .error () := by
  constructor
  · induction cauldron_info with
    | nil => exact ⟨[], rfl⟩
    | cons e rest ih =>
      obtain ⟨fs, hfs⟩ := ih (fun x hx => hpre x (List.mem_cons_of_mem e hx))
      have hne := hpre e (List.mem_cons_self e rest)
      rw [forecast_levels] at hfs ⊢
      rw [List.mapM_cons, hfs]
      rw [forecastCauldron]
      simp only [if_neg hne]
      exact ⟨_, rfl⟩
  · intro cid info hzero
    rw [forecastCauldron]
    simp only [if_pos hzero]

/-- C10 (witness): for the concrete one-cauldron reference map with
`max_volume = 100` the forecast succeeds, and setting `max_volume = 0`
makes the per-cauldron body raise. -/
theorem C10_total_iff_max_volume_nonzero_witness :
    (∃ fs, forecast_levels [] [("c", ⟨"c", 0, 0, some 100⟩)] 0 1 = .ok fs) ∧
      ∀ cid : String, ∀ info : Cauldron, info.max_volume.getD 1000 = 0 →
        forecastCauldron [] 0 1 cid info = .error () := by
  exact C10_total_iff_max_volume_nonzero [] [("c", ⟨"c", 0, 0, some 100⟩)] 0 1
    (by decide)

/-! ## Claim C6 -/

/--
C6: every forecast produced by `forecast_levels` (whose brew rate is the
clamped non-negative `calculate_brew_rate`) has a monotonically non-decreasing
sequence of forecast points — each point's predicted level is ≤ the next
hour's predicted level — and every predicted level is capped at `max_volume`.
-/
theorem C6_forecast_monotone_capped (df : List Reading) (now : ℚ)
    (forecast_hours : ℕ) (cid : String) (info : Cauldron) (f : Forecast)
    (h : forecastCauldron df now forecast_hours cid info = .ok f) :
    List.Chain' (fun p q : ForecastPoint => p.level ≤ q.level)
        f.forecast_points ∧
      ∀ p ∈ f.forecast_points, p.level ≤ f.max_volume := by
  rw [forecastCauldron] at h
  by_cases hzero : info.max_volume.getD 1000 = 0
  · simp only [if_pos hzero] at h
    cases h
  simp only [if_neg hzero, Except.ok.injEq] at h
  subst h
  simp only
  constructor
  · rw [List.chain'_iff_get]
    intro i hlen
    simp only [List.length_map, List.length_range] at hlen
    simp only [List.get_eq_getElem, List.getElem_map, List.getElem_range]
    apply min_le_min _ (le_refl _)
    have hr := calculate_brew_rate_nonneg df cid
    have hc : (i : ℚ) ≤ ((i + 1 : ℕ) : ℚ) := by push_cast; linarith
    nlinarith
  · intro p hp
    simp only [List.mem_map, List.mem_range] at hp
    obtain ⟨hour, _, rfl⟩ := hp
    exact min_le_right _ _

/-- The concrete forecast record produced for an empty reading history, a
100 L cauldron, and a 1-hour horizon (evaluated from the definitions). -/
def c6ExampleForecast : Forecast :=
  { cauldron_id := "c", current_level := 0, max_volume := 100,
    current_percentage := 0, brew_rate_liters_per_hour := 0,
    forecast_points :=
      [{ timestamp := 0, level := 0, percentage := 0 },
       { timestamp := 1, level := 0, percentage := 0 }],
    time_to_80_percent := none, time_to_100_percent := none,
    at_risk_12h := false }

/-- C6 (witness): the concrete empty-history forecast for a 100 L cauldron
over a 1-hour horizon has non-decreasing, capped forecast points. -/
theorem C6_forecast_monotone_capped_witness :
    List.Chain' (fun p q : ForecastPoint => p.level ≤ q.level)
        c6ExampleForecast.forecast_points ∧
      ∀ p ∈ c6ExampleForecast.forecast_points,
        p.level ≤ c6ExampleForecast.max_volume :=
  C6_forecast_monotone_capped [] 0 1 "c" ⟨"c", 0, 0, some 100⟩
    c6ExampleForecast (by with_unfolding_all rfl)

/-! ## Claim C7 -/

/--
C7 (counterexample): the claim says `time_to_80_percent` is null exactly when
the rate is 0 and the current percentage is below 80; but for the concrete
series (t=0h, 0 L), (t=1h, 1e-11 L) on a 1000 L cauldron the computed brew
rate is 1e-11 — positive, not 0 — yet it fails the `1e-10` epsilon test and
the percentage is below 80, so `time_to_80_percent` is null anyway.
-/
theorem C7_counterexample :
    (forecastCauldron
        [⟨0, "c", 0⟩, ⟨1, "c", 1 / 10 ^ 11⟩] 0 24 "c" ⟨"c", 0, 0, some 1000⟩).map
        (fun f => (f.brew_rate_liters_per_hour, f.time_to_80_percent)) =
      .ok ((1 / 10 ^ 11 : ℚ), (none : Option ℚ)) ∧
      (1 / 10 ^ 11 : ℚ) ≠ 0 := by
  constructor
  · with_unfolding_all rfl
  · norm_num

/-- Full case analysis of `timeTo80Resolved`, as pure rational arithmetic. -/
theorem timeTo80Resolved_spec (now r M cur pct : ℚ) :
    (rateEpsilon < r →
      (0 < M * (8 / 10) - cur →
        timeTo80Resolved now r M cur pct =
          some (now + (M * (8 / 10) - cur) / r)) ∧
      (M * (8 / 10) - cur ≤ 0 →
        timeTo80Resolved now r M cur pct = some now)) ∧
    (r ≤ rateEpsilon → 80 ≤ pct →
      timeTo80Resolved now r M cur pct = some now) ∧
    (timeTo80Resolved now r M cur pct = none ↔
      r ≤ rateEpsilon ∧ pct < 80) := by
  rw [timeTo80Resolved, timesToThresholds]
  by_cases hrate : rateEpsilon < r
  · simp only [if_pos hrate]
    by_cases hrem : 0 < M * (8 / 10) - cur
    · simp only [if_pos hrem]
      simp [hrate, not_lt.mpr (le_of_lt hrate)]
      intro h
      exact absurd hrem (by linarith)
    · simp only [if_neg hrem]
      simp [hrate, not_le.mpr hrate, hrem, not_lt.mp hrem]
  · simp only [if_neg hrate]
    by_cases hpct : 80 ≤ pct
    · simp [hpct, not_lt.mp hrate]
    · simp [hpct, not_lt.mp hrate, not_le.mp hpct]

/--
C7 (amended): `forecast_levels` sets `time_to_80_percent` as follows, for
every cauldron: when the rate exceeds the epsilon `1e-10` and
`0.8·max_volume − current_level > 0`, it is now + that remainder divided by
the rate (in hours); when the rate exceeds the epsilon and the remainder ≤ 0,
it is now; when the rate is at most the epsilon but the current percentage is
already ≥ 80, it is still now; and it is null exactly when the rate is at
most the epsilon (not necessarily exactly 0) and the current percentage is
below 80.
-/
theorem C7_time_to_80_characterization (df : List Reading) (now : ℚ)
    (forecast_hours : ℕ) (cid : String) (info : Cauldron) (f : Forecast)
    (h : forecastCauldron df now forecast_hours cid info = .ok f) :
    (rateEpsilon < f.brew_rate_liters_per_hour →
      (0 < f.max_volume * (8 / 10) - f.current_level →
        f.time_to_80_percent = some (now +
          (f.max_volume * (8 / 10) - f.current_level) /
            f.brew_rate_liters_per_hour)) ∧
      (f.max_volume * (8 / 10) - f.current_level ≤ 0 →
        f.time_to_80_percent = some now)) ∧
    (f.brew_rate_liters_per_hour ≤ rateEpsilon →
      80 ≤ f.current_percentage → f.time_to_80_percent = some now) ∧
    (f.time_to_80_percent = none ↔
      f.brew_rate_liters_per_hour ≤ rateEpsilon ∧ f.current_percentage < 80) := by
  rw [forecastCauldron] at h
  by_cases hzero : info.max_volume.getD 1000 = 0
  · simp only [if_pos hzero] at h
    cases h
  simp only [if_neg hzero, Except.ok.injEq] at h
  subst h
  simp only
  exact timeTo80Resolved_spec now _ _ _ _

/-- The concrete forecast record produced for the epsilon-rate example
(readings 0 L then 1e-11 L an hour apart, 1000 L cauldron). -/
def c7ExampleForecast : Forecast :=
  { cauldron_id := "c", current_level := 1 / 10 ^ 11,
    max_volume := 1000, current_percentage := 1 / 10 ^ 12,
    brew_rate_liters_per_hour := 1 / 10 ^ 11,
    forecast_points := (List.range (24 + 1)).map (fun hour : ℕ =>
      { timestamp := 0 + (hour : ℚ),
        level := min (1 / 10 ^ 11 + 1 / 10 ^ 11 * (hour : ℚ)) 1000,
        percentage := min (1 / 10 ^ 11 + 1 / 10 ^ 11 * (hour : ℚ)) 1000
          / 1000 * 100 }),
    time_to_80_percent := none, time_to_100_percent := none,
    at_risk_12h := false }

/-- C7 (amended, witness): the epsilon-rate example instantiates the
characterization: rate 1e-11 ≤ 1e-10 and percentage below 80 give a null
`time_to_80_percent`. -/
theorem C7_time_to_80_characterization_witness :
    c7ExampleForecast.time_to_80_percent = none :=
  (C7_time_to_80_characterization [⟨0, "c", 0⟩, ⟨1, "c", 1 / 10 ^ 11⟩] 0 24
      "c" ⟨"c", 0, 0, some 1000⟩ c7ExampleForecast
      (by with_unfolding_all rfl)).2.2.mpr
    ⟨by norm_num [c7ExampleForecast, rateEpsilon, calculate_brew_rate,
        cauldronSeries, brewRateLoop, tsMax, tsMin, increasingSections,
        nonDecreasingRuns, runsAux, olsSlope],
      by norm_num [c7ExampleForecast]⟩

/-! ## Claim C5 -/

/-- A mapped list sum as a sum over `Fin`. -/
theorem list_map_sum_fin {α : Type} (l : List α) (f : α → ℚ) :
    (l.map f).sum = ∑ i : Fin l.length, f (l.get i) := by
  rw [← List.ofFn_get_eq_map, List.sum_ofFn]

/-- Chebyshev: the OLS slope of a series whose `x` values and `y` values are
both non-decreasing along the list is non-negative. -/
theorem olsSlope_nonneg (l : List (ℚ × ℚ))
    (hx : List.Chain' (fun a b : ℚ × ℚ => a.1 ≤ b.1) l)
    (hy : List.Chain' (fun a b : ℚ × ℚ => a.2 ≤ b.2) l) :
    0 ≤ olsSlope l := by
  haveI htx : IsTrans (ℚ × ℚ) (fun a b : ℚ × ℚ => a.1 ≤ b.1) :=
    ⟨fun _ _ _ hab hbc => le_trans hab hbc⟩
  haveI hty : IsTrans (ℚ × ℚ) (fun a b : ℚ × ℚ => a.2 ≤ b.2) :=
    ⟨fun _ _ _ hab hbc => le_trans hab hbc⟩
  have hpx := List.pairwise_iff_get.mp (List.chain'_iff_pairwise.mp hx)
  have hpy := List.pairwise_iff_get.mp (List.chain'_iff_pairwise.mp hy)
  have hgx : ∀ i j : Fin l.length, i ≤ j → (l.get i).1 ≤ (l.get j).1 := by
    intro i j hij
    rcases lt_or_eq_of_le hij with hlt | heq
    · exact hpx i j hlt
    · rw [heq]
  have hgy : ∀ i j : Fin l.length, i ≤ j → (l.get i).2 ≤ (l.get j).2 := by
    intro i j hij
    rcases lt_or_eq_of_le hij with hlt | heq
    · exact hpy i j hlt
    · rw [heq]
  have hmono : Monovary (fun i : Fin l.length => (l.get i).1)
      (fun i : Fin l.length => (l.get i).2) := by
    intro i j hlt
    by_cases hij : i ≤ j
    · exact hgx i j hij
    · exact absurd (hgy j i (le_of_not_le hij)) (not_le.mpr hlt)
  simp only [olsSlope]
  apply div_nonneg
  · have hcheb := hmono.sum_mul_sum_le_card_mul_sum
    rw [list_map_sum_fin l Prod.fst, list_map_sum_fin l Prod.snd,
      list_map_sum_fin l (fun p => p.1 * p.2)]
    rw [sub_nonneg]
    calc (∑ i : Fin l.length, (l.get i).1) * ∑ i : Fin l.length, (l.get i).2
        ≤ (Fintype.card (Fin l.length) : ℚ) *
            ∑ i : Fin l.length, (l.get i).1 * (l.get i).2 := hcheb
      _ = (l.length : ℚ) * ∑ i : Fin l.length, (l.get i).1 * (l.get i).2 := by
          rw [Fintype.card_fin]
  · have hself : Monovary (fun i : Fin l.length => (l.get i).1)
        (fun i : Fin l.length => (l.get i).1) := fun _ _ h => le_of_lt h
    have hsq := hself.sum_mul_sum_le_card_mul_sum
    rw [list_map_sum_fin l Prod.fst, list_map_sum_fin l (fun p => p.1 * p.1)]
    rw [sub_nonneg]
    calc (∑ i : Fin l.length, (l.get i).1) * ∑ i : Fin l.length, (l.get i).1
        ≤ (Fintype.card (Fin l.length) : ℚ) *
            ∑ i : Fin l.length, (l.get i).1 * (l.get i).1 := hsq
      _ = (l.length : ℚ) * ∑ i : Fin l.length, (l.get i).1 * (l.get i).1 := by
          rw [Fintype.card_fin]

/-- On a series whose head onwards never decreases, the run-splitting loop
returns a single section holding everything. -/
theorem runsAux_of_chain : ∀ (xs : List (ℚ × ℚ)) (cur : List (ℚ × ℚ))
    (last : ℚ), (∀ y ∈ xs.head?, last ≤ y.2) →
    List.Chain' (fun a b : ℚ × ℚ => a.2 ≤ b.2) xs →
    runsAux cur last xs = [cur.reverse ++ xs] := by
  intro xs
  induction xs with
  | nil => intro cur last _ _; simp [runsAux]
  | cons x xs ih =>
    intro cur last hhead hchain
    rw [runsAux, if_pos (hhead x rfl)]
    obtain ⟨hrel, htail⟩ := List.chain'_cons'.mp hchain
    rw [ih (x :: cur) x.2 hrel htail]
    simp

/-- A non-empty series with no decreasing step forms one single run. -/
theorem nonDecreasingRuns_of_chain (l : List (ℚ × ℚ)) (hne : l ≠ [])
    (h : List.Chain' (fun a b : ℚ × ℚ => a.2 ≤ b.2) l) :
    nonDecreasingRuns l = [l] := by
  match l, hne with
  | x :: xs, _ =>
    rw [nonDecreasingRuns,
      runsAux_of_chain xs [x] x.2 (List.chain'_cons'.mp h).1
        (List.chain'_cons'.mp h).2]
    simp

/-- On a series of length ≥ 2 with no decreasing step, `increasing_sections`
selects the whole series. -/
theorem increasingSections_of_chain (l : List (ℚ × ℚ)) (h2 : 2 ≤ l.length)
    (h : List.Chain' (fun a b : ℚ × ℚ => a.2 ≤ b.2) l) :
    increasingSections l = l := by
  rw [increasingSections, nonDecreasingRuns_of_chain l (by
    intro hl; rw [hl] at h2; simp at h2) h]
  simp [h2]

/-- When every reading of a (sorted, non-decreasing, length ≥ 2) series lies
within 24 hours of the latest one, every lookback window of at least 24 hours
keeps the whole series, so the window loop returns the whole-series OLS slope
when it is positive and 0 otherwise. -/
theorem brewRateLoop_all_within (data : List (ℚ × ℚ))
    (h2 : 2 ≤ data.length)
    (hx : List.Chain' (fun a b : ℚ × ℚ => a.1 ≤ b.1) data)
    (hy : List.Chain' (fun a b : ℚ × ℚ => a.2 ≤ b.2) data)
    (hwin : ∀ p ∈ data, tsMax data - 24 ≤ p.1) :
    ∀ ws : List ℚ, (∀ w ∈ ws, 24 ≤ w) →
      brewRateLoop data ws =
        if 0 < olsSlope (data.map (fun r => (r.1 - tsMin data, r.2))) ∧
            ws ≠ []
        then olsSlope (data.map (fun r => (r.1 - tsMin data, r.2))) else 0 := by
  intro ws
  induction ws with
  | nil => intro _; simp [brewRateLoop]
  | cons w ws ih =>
    intro hws
    have hw : 24 ≤ w := hws w (List.mem_cons_self w ws)
    have hfilter : data.filter (fun r => decide (tsMax data - w ≤ r.1)) = data := by
      rw [List.filter_eq_self]
      intro p hp
      simp only [decide_eq_true_eq]
      have := hwin p hp
      linarith
    rw [brewRateLoop]
    simp only [hfilter]
    have hnlt : ¬ data.length < 2 := not_lt.mpr h2
    rw [if_neg hnlt, if_neg hnlt]
    have hshift_x : List.Chain' (fun a b : ℚ × ℚ => a.1 ≤ b.1)
        (data.map (fun r => (r.1 - tsMin data, r.2))) := by
      rw [List.chain'_map]
      exact hx.imp (fun ha => by simpa using sub_le_sub_right ha _)
    have hshift_y : List.Chain' (fun a b : ℚ × ℚ => a.2 ≤ b.2)
        (data.map (fun r => (r.1 - tsMin data, r.2))) := by
      rw [List.chain'_map]
      exact hy.imp (fun ha => by simpa using ha)
    have hlen2 : 2 ≤ (data.map (fun r => (r.1 - tsMin data, r.2))).length := by
      rw [List.length_map]; exact h2
    rw [increasingSections_of_chain _ hlen2 hshift_y]
    rw [if_pos hlen2]
    have hnn : 0 ≤ olsSlope (data.map (fun r => (r.1 - tsMin data, r.2))) :=
      olsSlope_nonneg _ hshift_x hshift_y
    rw [max_eq_right hnn]
    by_cases hpos : 0 < olsSlope (data.map (fun r => (r.1 - tsMin data, r.2)))
    · rw [if_pos hpos]
      simp [hpos]
    · rw [if_neg hpos]
      rw [ih (fun w' hw' => hws w' (List.mem_cons_of_mem w hw'))]
      simp [hpos]

/--
C5 (counterexample): the claim says that on any non-decreasing series of ≥ 2
readings the estimator returns the OLS slope over the WHOLE series; but the
concrete sorted, non-decreasing series (0 h, 0 L), (30 h, 10 L), (31 h, 20 L)
spans more than the 24-hour lookback window, so `calculate_brew_rate` fits
only the last two points and returns 10 L/h, while the whole-series OLS slope
is 465/931 ≈ 0.4995 L/h.
-/
theorem C5_counterexample :
    2 ≤ (cauldronSeries [⟨0, "c", 0⟩, ⟨30, "c", 10⟩, ⟨31, "c", 20⟩] "c").length ∧
    List.Chain' (fun a b : ℚ × ℚ => a.1 ≤ b.1)
      (cauldronSeries [⟨0, "c", 0⟩, ⟨30, "c", 10⟩, ⟨31, "c", 20⟩] "c") ∧
    List.Chain' (fun a b : ℚ × ℚ => a.2 ≤ b.2)
      (cauldronSeries [⟨0, "c", 0⟩, ⟨30, "c", 10⟩, ⟨31, "c", 20⟩] "c") ∧
    calculate_brew_rate [⟨0, "c", 0⟩, ⟨30, "c", 10⟩, ⟨31, "c", 20⟩] "c" = 10 ∧
    wholeSeriesSlope [⟨0, "c", 0⟩, ⟨30, "c", 10⟩, ⟨31, "c", 20⟩] "c" =
      465 / 931 ∧
    (10 : ℚ) ≠ 465 / 931 := by
  have hs : cauldronSeries [⟨0, "c", 0⟩, ⟨30, "c", 10⟩, ⟨31, "c", 20⟩] "c" =
      [(0, 0), (30, 10), (31, 20)] := by with_unfolding_all rfl
  refine ⟨?_, ?_, ?_, ?_, ?_, ?_⟩
  · exact of_decide_eq_true (by with_unfolding_all rfl)
  · rw [hs]; norm_num [List.chain'_cons]
  · rw [hs]; norm_num [List.chain'_cons]
  · with_unfolding_all rfl
  · with_unfolding_all rfl
  · norm_num

/-- The readings one lookback window keeps: the rows within `w` hours of the
series' latest timestamp (`recent_data = cauldron_data[cauldron_data
['timestamp'] >= cutoff_time]` in `calculate_brew_rate`). -/
def windowKept (data : List (ℚ × ℚ)) (w : ℚ) : List (ℚ × ℚ) :=
  data.filter (fun r => tsMax data - w ≤ r.1)

/-- The rows one window actually fits: the increasing sections of the kept
readings, timestamps rebased to hours since the window's first kept
reading. -/
def windowedSections (data : List (ℚ × ℚ)) (w : ℚ) : List (ℚ × ℚ) :=
  increasingSections ((windowKept data w).map
    (fun r => (r.1 - tsMin (windowKept data w), r.2)))

/--
C5 (amended): `calculate_brew_rate` is a windowed fit, not a whole-series
one.  Whenever the 24-hour lookback window ending at the series' latest
reading keeps at least two readings and the increasing sections of that
windowed subseries have at least two rows with a positive OLS slope, the
function returns exactly that window-restricted OLS slope: readings before
the cutoff are excluded from the fit (they only place the cutoff through
the latest timestamp), so the result generally differs from the OLS slope
of the whole series.  (When a window keeps fewer than two readings the code
instead fits the last `min(1000, len)` rows of the whole series regardless
of age, and when a window's slope is not positive it retries with the wider
48/72/168/336-hour windows, returning 0 only when every window fails; those
branches are outside this equality.)
-/
theorem C5_rate_equals_windowed_ols (df : List Reading) (cid : String)
    (h2 : 2 ≤ (windowKept (cauldronSeries df cid) 24).length)
    (hsecs : 2 ≤ (windowedSections (cauldronSeries df cid) 24).length)
    (hpos : 0 < olsSlope (windowedSections (cauldronSeries df cid) 24)) :
    calculate_brew_rate df cid =
      olsSlope (windowedSections (cauldronSeries df cid) 24) := by
  have hfl : (windowKept (cauldronSeries df cid) 24).length ≤
      (cauldronSeries df cid).length := List.length_filter_le _ _
  have hlen : ¬ (cauldronSeries df cid).length < 2 := by omega
  have h2' : ¬ (windowKept (cauldronSeries df cid) 24).length < 2 :=
    not_lt.mpr h2
  simp only [windowKept] at h2'
  have hsecs' := hsecs
  have hpos' := hpos
  simp only [windowedSections, windowKept] at hsecs' hpos'
  simp only [calculate_brew_rate]
  rw [if_neg hlen]
  simp only [brewRateLoop]
  rw [if_neg h2', if_neg h2']
  rw [if_pos hsecs']
  rw [max_eq_right (le_of_lt hpos')]
  rw [if_pos hpos']
  simp only [windowedSections, windowKept]

/-- C5 (amended, witness): on the counterexample's own series (0 h, 0 L),
(30 h, 10 L), (31 h, 20 L) the 24-hour window keeps only the last two
readings; the window-restricted OLS slope is 10 L/h and
`calculate_brew_rate` returns exactly it, even though a reading lies outside
the window. -/
theorem C5_rate_equals_windowed_ols_witness :
    2 ≤ (windowKept
        (cauldronSeries [⟨0, "c", 0⟩, ⟨30, "c", 10⟩, ⟨31, "c", 20⟩] "c")
        24).length ∧
      2 ≤ (windowedSections
        (cauldronSeries [⟨0, "c", 0⟩, ⟨30, "c", 10⟩, ⟨31, "c", 20⟩] "c")
        24).length ∧
      0 < olsSlope (windowedSections
        (cauldronSeries [⟨0, "c", 0⟩, ⟨30, "c", 10⟩, ⟨31, "c", 20⟩] "c")
        24) ∧
      olsSlope (windowedSections
        (cauldronSeries [⟨0, "c", 0⟩, ⟨30, "c", 10⟩, ⟨31, "c", 20⟩] "c")
        24) = 10 ∧
      calculate_brew_rate [⟨0, "c", 0⟩, ⟨30, "c", 10⟩, ⟨31, "c", 20⟩] "c" =
        olsSlope (windowedSections
          (cauldronSeries [⟨0, "c", 0⟩, ⟨30, "c", 10⟩, ⟨31, "c", 20⟩] "c")
          24) :=
  ⟨of_decide_eq_true (by with_unfolding_all rfl),
    of_decide_eq_true (by with_unfolding_all rfl),
    of_decide_eq_true (by with_unfolding_all rfl),
    by with_unfolding_all rfl,
    C5_rate_equals_windowed_ols
      [⟨0, "c", 0⟩, ⟨30, "c", 10⟩, ⟨31, "c", 20⟩] "c"
      (of_decide_eq_true (by with_unfolding_all rfl))
      (of_decide_eq_true (by with_unfolding_all rfl))
      (of_decide_eq_true (by with_unfolding_all rfl))⟩

/-! # Location graph and shortest path (src/backend/utils/route_optimization.py)

`Graph.nodes` is the `node_id -> attributes` dict, `Graph.edges` the
`from -> (to -> {travel_time, distance})` dict of dicts.  Python floats are
rationals and `float('inf')` is `⊤ : WithTop ℚ`. -/

/-- Attributes a node may carry (`add_node(**attributes)`): the builder gives
market and cauldron nodes coordinates and a type tag, and cauldrons a
`max_volume`. -/
structure NodeAttr where
  latitude : Option ℚ
  longitude : Option ℚ
  node_type : Option String
  max_volume : Option ℚ
deriving Repr, DecidableEq

structure EdgeData where
  travel_time : ℚ
  distance : ℚ
deriving Repr, DecidableEq

structure Graph where
  nodes : List (String × NodeAttr)
  edges : List (String × List (String × EdgeData))
deriving Repr, DecidableEq

/-- `Graph.add_node`. -/
def add_node (g : Graph) (node_id : String) (attributes : NodeAttr) : Graph :=
  { g with nodes := alInsert g.nodes node_id attributes }

/-- `Graph.add_edge`: insert the directed edge, computing the distance with
the Haversine helper when it is not provided and the from-node carries
coordinates.  (The source reads the destination's coordinates unconditionally
at that point; graphs built by `build_graph` always give nodes coordinates,
and the embedding uses a 0 default for the destination, mirroring the only
graphs the program constructs.)  A missing or zero distance is stored as 0.0
(`distance or 0.0`). -/
def add_edge (hav : ℚ → ℚ → ℚ → ℚ → ℚ) (g : Graph) (from_node to_node : String)
    (travel_time : ℚ) (distance : Option ℚ) : Graph :=
  let filled : Option ℚ :=
    match distance with
    | some d => some d
    | none =>
      match alLookup g.nodes from_node, alLookup g.nodes to_node with
      | some fa, ta =>
        match fa.latitude, fa.longitude with
        | some flat, some flon =>
          some (hav flat flon ((ta.bind NodeAttr.latitude).getD 0)
            ((ta.bind NodeAttr.longitude).getD 0))
        | _, _ => none
      | none, _ => none
  let inner := (alLookup g.edges from_node).getD []
  let newEdges :=
    alInsert g.edges from_node (alInsert inner to_node ⟨travel_time, filled.getD 0⟩)
  { g with edges := newEdges }

/-- `Graph.get_neighbors`: `(neighbor, travel_time, distance)` triples. -/
def get_neighbors (g : Graph) (node_id : String) : List (String × ℚ × ℚ) :=
  ((alLookup g.edges node_id).getD []).map
    (fun e => (e.1, e.2.travel_time, e.2.distance))

/-- A `heapq` entry of `Graph.dijkstra`:
`(total_time, current_node, path, total_distance)`. -/
structure PQEntry where
  time : ℚ
  node : String
  path : List String
  dist : ℚ
deriving Repr, DecidableEq

/-- Lexicographic comparison of string lists (Python list comparison). -/
def listStrLt : List String → List String → Bool
  | [], [] => false
  | [], _ :: _ => true
  | _ :: _, [] => false
  | a :: as, b :: bs =>
    if a < b then true else if b < a then false else listStrLt as bs

/-- Python's tuple ordering on heap entries:
`(time, node, path, dist)` compared lexicographically. -/
def pqLt (x y : PQEntry) : Bool :=
  if x.time < y.time then true
  else if y.time < x.time then false
  else if x.node < y.node then true
  else if y.node < x.node then false
  else if listStrLt x.path y.path then true
  else if listStrLt y.path x.path then false
  else decide (x.dist < y.dist)

/-- The least entry of `a :: l` under `pqLt` (what `heapq.heappop` yields;
entries comparing equal are identical tuples, so the choice is immaterial). -/
def pqMinOf (l : List PQEntry) (a : PQEntry) : PQEntry :=
  l.foldl (fun b x => if pqLt x b then x else b) a

/-- `heapq.heappop`: remove and return the least entry. -/
def popMin (l : List PQEntry) : Option (PQEntry × List PQEntry) :=
  match l with
  | [] => none
  | x :: xs =>
    let m := pqMinOf xs x
    some (m, (x :: xs).erase m)

/-- Traversal cost of the directed edge `u → v`, when present. -/
def edgeTime (g : Graph) (u v : String) : Option ℚ :=
  match alLookup g.edges u with
  | none => none
  | some inner => (alLookup inner v).map EdgeData.travel_time

/-- Total travel time along a node sequence; `none` when the sequence is
empty or some consecutive pair lacks an edge. -/
def chainTime (g : Graph) : List String → Option ℚ
  | [] => none
  | [_] => some 0
  | u :: v :: rest =>
    match edgeTime g u v, chainTime g (v :: rest) with
    | some t, some c => some (t + c)
    | _, _ => none

/-- `p` is a path from `a` to `b` in `g` with total travel time `t`. -/
def ValidPath (g : Graph) (a b : String) (p : List String) (t : ℚ) : Prop :=
  p.head? = some a ∧ p.getLast? = some b ∧ chainTime g p = some t

/-- `t` is the least travel time over all paths from `a` to `b`. -/
def IsShortest (g : Graph) (a b : String) (t : ℚ) : Prop :=
  (∃ p, ValidPath g a b p t) ∧ ∀ p t', ValidPath g a b p t' → t ≤ t'

/-- All edges of the graph have non-negative travel time (spec §4.3: travel
times are ≥ 0 by domain construction). -/
def NonnegWeights (g : Graph) : Prop :=
  ∀ u v t, edgeTime g u v = some t → 0 ≤ t

/-- Fuel that dominates the number of iterations of the Dijkstra loop: one
initial entry plus at most one push per stored edge, plus slack (each
iteration pops an entry, and pushes happen at most once per settled node). -/
def dijkstraFuel (g : Graph) : ℕ :=
  2 + (g.edges.map (fun kv => kv.2.length + 1)).sum

/-- Entries pushed when settling `e`: one per neighbor not yet visited
(`visited'` already contains `e.node`). -/
def dijkstraPushes (g : Graph) (e : PQEntry) (visited' : List String) :
    List PQEntry :=
  (get_neighbors g e.node).filterMap
    (fun nb => if nb.1 ∈ visited' then none
      else some ⟨e.time + nb.2.1, nb.1, e.path ++ [nb.1], e.dist + nb.2.2⟩)

/-- The `while pq` loop of `Graph.dijkstra`.  The fuel is structural
bookkeeping only: `dijkstraFuel` strictly dominates the loop's termination
measure, so the 0-fuel branch is unreachable (proved in the correctness
lemmas below). -/
def dijkstraLoop (g : Graph) (endN : String) :
    ℕ → List PQEntry → List String → List String × WithTop ℚ × WithTop ℚ
  | 0, _, _ => ([], ⊤, ⊤)
  | fuel + 1, pq, visited =>
    match popMin pq with
    | none => ([], ⊤, ⊤)
    | some (e, rest) =>
      if e.node ∈ visited then dijkstraLoop g endN fuel rest visited
      else
        let visited' := e.node :: visited
        if e.node = endN then (e.path, (e.time : WithTop ℚ), (e.dist : WithTop ℚ))
        else
          dijkstraLoop g endN fuel (rest ++ dijkstraPushes g e visited') visited'

/-- `Graph.dijkstra(start, end)`: `(path, total_time, total_distance)`, with
`([], inf, inf)` when an endpoint is missing or no path exists. -/
def dijkstra (g : Graph) (start endN : String) :
    List String × WithTop ℚ × WithTop ℚ :=
  if (alLookup g.nodes start).isSome ∧ (alLookup g.nodes endN).isSome then
    dijkstraLoop g endN (dijkstraFuel g) [⟨0, start, [start], 0⟩] []
  else ([], ⊤, ⊤)

/-- External network feed record (`{'from', 'to', 'travel_time_minutes',
'distance_km'}`); `efrom`/`eto` stand for the `from`/`to` keys. -/
structure NetworkEdge where
  efrom : String
  eto : String
  travel_time_minutes : ℚ
  distance_km : Option ℚ
deriving Repr, DecidableEq

/-- External market record. -/
structure Market where
  latitude : ℚ
  longitude : ℚ
deriving Repr, DecidableEq

/-- `build_graph(network_data, cauldrons, market)`: market node, cauldron
nodes, then both directions of every feed edge (assumed bidirectional). -/
def build_graph (hav : ℚ → ℚ → ℚ → ℚ → ℚ) (network_edges : List NetworkEdge)
    (cauldrons : List Cauldron) (market : Market) : Graph :=
  let g0 : Graph := ⟨[], []⟩
  let g1 := add_node g0 "market"
    ⟨some market.latitude, some market.longitude, some "market", none⟩
  let g2 := cauldrons.foldl (fun g c => add_node g c.id
    ⟨some c.latitude, some c.longitude, some "cauldron",
      some (c.max_volume.getD 1000)⟩) g1
  network_edges.foldl (fun g e =>
    add_edge hav
      (add_edge hav g e.efrom e.eto e.travel_time_minutes e.distance_km)
      e.eto e.efrom e.travel_time_minutes e.distance_km) g2

/-! ## Dictionary and priority-queue lemmas -/

theorem alLookup_alInsert {α : Type} (l : List (String × α)) (k : String)
    (v : α) (k' : String) :
    alLookup (alInsert l k v) k' = if k = k' then some v else alLookup l k' := by
  induction l with
  | nil => simp [alInsert, alLookup]
  | cons kv rest ih =>
    obtain ⟨k0, v0⟩ := kv
    rw [alInsert]
    by_cases h0 : k0 = k
    · subst h0
      simp only [if_pos rfl, alLookup]
      by_cases h1 : k0 = k'
      · subst h1; simp
      · simp [h1]
    · simp only [if_neg h0, alLookup]
      by_cases h1 : k0 = k'
      · subst h1
        have : ¬ k = k0 := fun h => h0 h.symm
        simp [this]
      · simp [h1, ih]

theorem alLookup_mem {α : Type} (l : List (String × α)) (k : String) (v : α)
    (h : alLookup l k = some v) : (k, v) ∈ l := by
  induction l with
  | nil => simp [alLookup] at h
  | cons kv rest ih =>
    obtain ⟨k0, v0⟩ := kv
    rw [alLookup] at h
    by_cases h0 : k0 = k
    · subst h0
      rw [if_pos rfl] at h
      injection h with h
      subst h
      exact List.mem_cons_self _ _
    · rw [if_neg h0] at h
      exact List.mem_cons_of_mem _ (ih h)

theorem pqLt_time_le {x y : PQEntry} (h : pqLt x y = true) :
    x.time ≤ y.time := by
  by_cases h1 : x.time < y.time
  · exact le_of_lt h1
  · by_cases h2 : y.time < x.time
    · rw [pqLt, if_neg h1, if_pos h2] at h
      cases h
    · exact not_lt.mp h2

theorem pqLt_false_time_le {x y : PQEntry} (h : pqLt x y = false) :
    y.time ≤ x.time := by
  by_cases h1 : x.time < y.time
  · rw [pqLt, if_pos h1] at h
    cases h
  · exact not_lt.mp h1

theorem pqMinOf_cons (x : PQEntry) (l : List PQEntry) (a : PQEntry) :
    pqMinOf (x :: l) a = pqMinOf l (if pqLt x a then x else a) := by
  rw [pqMinOf, pqMinOf, List.foldl_cons]

theorem pqMinOf_mem : ∀ (l : List PQEntry) (a : PQEntry),
    pqMinOf l a ∈ a :: l := by
  intro l
  induction l with
  | nil => intro a; simp [pqMinOf]
  | cons x l ih =>
    intro a
    rw [pqMinOf_cons]
    have h2 := ih (if pqLt x a then x else a)
    rcases List.mem_cons.mp h2 with h | h
    · rw [h]
      by_cases hlt : pqLt x a
      · simp [hlt]
      · simp [hlt]
    · exact List.mem_cons_of_mem _ (List.mem_cons_of_mem _ h)

theorem pqMinOf_time_le : ∀ (l : List PQEntry) (a e : PQEntry),
    (e ∈ l ∨ e = a) → (pqMinOf l a).time ≤ e.time := by
  intro l
  induction l with
  | nil =>
    intro a e he
    rcases he with h | h
    · simp at h
    · rw [h, pqMinOf]; exact le_refl _
  | cons x l ih =>
    intro a e he
    rw [pqMinOf_cons]
    have hle : (pqMinOf l (if pqLt x a then x else a)).time ≤
        (if pqLt x a then x else a).time := ih _ _ (Or.inr rfl)
    have hxa : (if pqLt x a then x else a).time ≤ x.time ∧
        (if pqLt x a then x else a).time ≤ a.time := by
      by_cases hlt : pqLt x a
      · rw [if_pos hlt]
        exact ⟨le_refl _, pqLt_time_le hlt⟩
      · rw [if_neg hlt]
        exact ⟨pqLt_false_time_le (by simpa using hlt), le_refl _⟩
    rcases he with h | h
    · rcases List.mem_cons.mp h with h | h
      · rw [h]; exact le_trans hle hxa.1
      · exact ih _ _ (Or.inl h)
    · rw [h]; exact le_trans hle hxa.2

theorem popMin_eq_none_iff (l : List PQEntry) : popMin l = none ↔ l = [] := by
  cases l <;> simp [popMin]

theorem popMin_spec (l : List PQEntry) (m : PQEntry) (rest : List PQEntry)
    (h : popMin l = some (m, rest)) :
    m ∈ l ∧ l.Perm (m :: rest) ∧ rest.length + 1 = l.length ∧
      ∀ e ∈ l, m.time ≤ e.time := by
  match l, h with
  | x :: xs, h =>
    rw [popMin] at h
    simp only [Option.some.injEq, Prod.mk.injEq] at h
    obtain ⟨hm, hrest⟩ := h
    rw [hm] at hrest
    have hmem : m ∈ x :: xs := hm ▸ pqMinOf_mem xs x
    have hperm : (x :: xs).Perm (m :: (x :: xs).erase m) :=
      List.perm_cons_erase hmem
    refine ⟨hmem, hrest ▸ hperm, ?_, ?_⟩
    · rw [← hrest]
      rw [List.length_erase_of_mem hmem]
      simp
    · intro e he
      rw [← hm]
      rcases List.mem_cons.mp he with h | h
      · exact pqMinOf_time_le xs x e (Or.inr h)
      · exact pqMinOf_time_le xs x e (Or.inl h)

/-! ## Path lemmas -/

theorem chainTime_singleton (g : Graph) (u : String) :
    chainTime g [u] = some 0 := rfl

theorem chainTime_cons_cons (g : Graph) (u v : String) (rest : List String) :
    chainTime g (u :: v :: rest) =
      match edgeTime g u v, chainTime g (v :: rest) with
      | some t, some c => some (t + c)
      | _, _ => none := rfl

theorem chainTime_nonneg (g : Graph) (hnn : NonnegWeights g) :
    ∀ (p : List String) (c : ℚ), chainTime g p = some c → 0 ≤ c := by
  intro p
  induction p with
  | nil => intro c h; simp [chainTime] at h
  | cons u rest ih =>
    intro c h
    match rest, h with
    | [], h =>
      rw [chainTime] at h
      simp only [Option.some.injEq] at h
      rw [← h]
    | v :: rest', h =>
      rw [chainTime] at h
      cases h1 : edgeTime g u v with
      | none => rw [h1] at h; cases h
      | some t =>
        cases h2 : chainTime g (v :: rest') with
        | none => rw [h1, h2] at h; cases h
        | some c' =>
          rw [h1, h2] at h
          simp only [Option.some.injEq] at h
          rw [← h]
          have := hnn u v t h1
          have := ih c' h2
          linarith

theorem chainTime_append_edge (g : Graph) :
    ∀ (p : List String) (c : ℚ) (u v : String) (w : ℚ),
    chainTime g p = some c → p.getLast? = some u → edgeTime g u v = some w →
    chainTime g (p ++ [v]) = some (c + w) := by
  intro p
  induction p with
  | nil => intro c u v w h; simp [chainTime] at h
  | cons x rest ih =>
    intro c u v w hc hl he
    match rest, hc, hl with
    | [], hc, hl =>
      rw [chainTime_singleton] at hc
      injection hc with hc
      simp only [List.getLast?_singleton, Option.some.injEq] at hl
      subst hl
      rw [List.singleton_append, chainTime_cons_cons, he, chainTime_singleton]
      rw [← hc]
      norm_num
    | y :: rest', hc, hl =>
      rw [chainTime] at hc
      cases h1 : edgeTime g x y with
      | none => rw [h1] at hc; cases hc
      | some t =>
        cases h2 : chainTime g (y :: rest') with
        | none => rw [h1, h2] at hc; cases hc
        | some c' =>
          rw [h1, h2] at hc
          simp only [Option.some.injEq] at hc
          have hl' : (y :: rest').getLast? = some u := by
            rw [← hl, List.getLast?_cons_cons]
          have hres := ih c' u v w h2 hl' he
          have hshape : (y :: rest') ++ [v] = y :: (rest' ++ [v]) := by simp
          rw [hshape] at hres
          rw [List.cons_append, hshape, chainTime_cons_cons, h1, hres]
          show some (t + (c' + w)) = some (c + w)
          rw [← hc]
          exact congrArg some (by ring)

theorem validPath_extend (g : Graph) (a u v : String) (p : List String)
    (c w : ℚ) (hp : ValidPath g a u p c) (he : edgeTime g u v = some w) :
    ValidPath g a v (p ++ [v]) (c + w) := by
  obtain ⟨hh, hl, hc⟩ := hp
  refine ⟨?_, ?_, ?_⟩
  · match p, hh with
    | x :: p', hh => simp_all
  · simp [List.getLast?_concat]
  · exact chainTime_append_edge g p c u v w hc hl he

theorem validPath_singleton (g : Graph) (a : String) :
    ValidPath g a a [a] 0 :=
  ⟨rfl, rfl, rfl⟩

theorem IsShortest.unique {g : Graph} {a b : String} {t t' : ℚ}
    (h1 : IsShortest g a b t) (h2 : IsShortest g a b t') : t = t' := by
  obtain ⟨p1, hp1⟩ := h1.1
  obtain ⟨p2, hp2⟩ := h2.1
  exact le_antisymm (h1.2 p2 t' hp2) (h2.2 p1 t hp1)

/-! ## Dijkstra loop invariant -/

/-- Association lists with pairwise distinct keys (Python dicts built with
`alInsert` always satisfy this). -/
def ALNodup {α : Type} (l : List (String × α)) : Prop :=
  (l.map Prod.fst).Nodup

/-- Well-formed graphs: the edge dict and every inner dict have distinct
keys, as every dict the program builds does. -/
def GraphWF (g : Graph) : Prop :=
  ALNodup g.edges ∧ ∀ kv ∈ g.edges, ALNodup kv.2

theorem alLookup_of_mem_nodup {α : Type} (l : List (String × α)) (k : String)
    (v : α) (hnd : ALNodup l) (hm : (k, v) ∈ l) : alLookup l k = some v := by
  induction l with
  | nil => simp at hm
  | cons kv rest ih =>
    obtain ⟨k0, v0⟩ := kv
    rw [ALNodup, List.map_cons, List.nodup_cons] at hnd
    rcases List.mem_cons.mp hm with h | h
    · injection h with h1 h2
      subst h1
      subst h2
      rw [alLookup, if_pos rfl]
    · rw [alLookup]
      have hk : k0 ≠ k := by
        intro he
        subst he
        exact hnd.1 (List.mem_map.mpr ⟨(k0, v), h, rfl⟩)
      rw [if_neg hk]
      exact ih hnd.2 h

theorem graphWF_neighbors {g : Graph} (hwf : GraphWF g) {u v : String}
    {t d : ℚ} (h : (v, t, d) ∈ get_neighbors g u) :
    edgeTime g u v = some t := by
  rw [get_neighbors] at h
  cases hl : alLookup g.edges u with
  | none => rw [hl] at h; simp at h
  | some inner =>
    rw [hl] at h
    simp only [Option.getD_some, List.mem_map] at h
    obtain ⟨⟨v', ed⟩, hmem, heq⟩ := h
    simp only [Prod.mk.injEq] at heq
    obtain ⟨hv, ht, hd⟩ := heq
    rw [hv] at hmem
    have hinner : ALNodup inner := hwf.2 (u, inner) (alLookup_mem _ _ _ hl)
    have hgoal : (alLookup inner v).map EdgeData.travel_time = some t := by
      rw [alLookup_of_mem_nodup inner v ed hinner hmem, Option.map_some', ht]
    rw [edgeTime, hl]
    exact hgoal

/-- The converse: every edge of the graph appears among the neighbors. -/
theorem edgeTime_mem_neighbors {g : Graph} {u v : String} {t : ℚ}
    (h : edgeTime g u v = some t) :
    ∃ d : ℚ, (v, t, d) ∈ get_neighbors g u := by
  cases hl : alLookup g.edges u with
  | none =>
    rw [edgeTime, hl] at h
    cases h
  | some inner =>
    have h' : (alLookup inner v).map EdgeData.travel_time = some t := by
      rw [edgeTime, hl] at h
      exact h
    cases hv : alLookup inner v with
    | none => rw [hv] at h'; cases h'
    | some ed =>
      rw [hv, Option.map_some'] at h'
      injection h' with h'
      refine ⟨ed.distance, ?_⟩
      rw [get_neighbors, hl]
      simp only [Option.getD_some, List.mem_map]
      exact ⟨(v, ed), alLookup_mem _ _ _ hv, by rw [← h']⟩

/-- Loop invariant of `dijkstraLoop`, after the settled/paths/start/frontier
invariants used in verified lazy-deletion Dijkstra implementations. -/
structure DijkstraInv (g : Graph) (start endN : String) (pq : List PQEntry)
    (visited : List String) : Prop where
  paths : ∀ e ∈ pq, ValidPath g start e.node e.path e.time
  settled : ∀ u ∈ visited, ∃ d, IsShortest g start u d
  start_ok : start ∈ visited ∨ ∃ e ∈ pq, e.node = start ∧ e.time = 0
  frontier : ∀ u ∈ visited, ∀ v t, edgeTime g u v = some t → v ∉ visited →
    ∃ e ∈ pq, e.node = v ∧ ∃ d, IsShortest g start u d ∧ e.time ≤ d + t
  end_not : endN ∉ visited

/-- Walking any path from a settled node to an unsettled target crosses an
edge still represented in the queue, with queue cost within the path cost. -/
theorem DijkstraInv.frontier_path {g : Graph} {start endN : String}
    {pq : List PQEntry} {visited : List String}
    (inv : DijkstraInv g start endN pq visited) (hnn : NonnegWeights g) :
    ∀ (p : List String) (u z : String) (c du : ℚ),
      u ∈ visited → IsShortest g start u du → ValidPath g u z p c →
      z ∉ visited → ∃ e ∈ pq, e.time ≤ du + c := by
  intro p
  induction p with
  | nil =>
    intro u z c du _ _ hvp _
    have := hvp.1
    simp at this
  | cons x p' ih =>
    intro u z c du hu hsu hvp hz
    have hx : x = u := by
      have := hvp.1
      simp only [List.head?_cons, Option.some.injEq] at this
      exact this
    subst hx
    match p', hvp, ih with
    | [], hvp, _ =>
      have hz' : z = x := by
        have := hvp.2.1
        simp only [List.getLast?_singleton, Option.some.injEq] at this
        exact this.symm
      exact absurd (hz' ▸ hu) hz
    | y :: p'', hvp, ih =>
      obtain ⟨hh, hl, hc⟩ := hvp
      rw [chainTime_cons_cons] at hc
      cases h1 : edgeTime g x y with
      | none => rw [h1] at hc; cases hc
      | some t =>
        cases h2 : chainTime g (y :: p'') with
        | none => rw [h1, h2] at hc; cases hc
        | some c' =>
          rw [h1, h2] at hc
          injection hc with hc
          have hc'nn : 0 ≤ c' := chainTime_nonneg g hnn _ _ h2
          have hl' : (y :: p'').getLast? = some z := by
            rw [← hl, List.getLast?_cons_cons]
          by_cases hy : y ∈ visited
          · obtain ⟨dy, hdy⟩ := inv.settled y hy
            have hdyle : dy ≤ du + t := by
              obtain ⟨pu, hpu⟩ := hsu.1
              exact hdy.2 _ _ (validPath_extend g start x y pu du t hpu h1)
            obtain ⟨e, he, hle⟩ := ih y z c' dy hy hdy ⟨rfl, hl', h2⟩ hz
            exact ⟨e, he, by linarith⟩
          · obtain ⟨e, he, hnode, d', hd', hle⟩ := inv.frontier x hu y t h1 hy
            have hdd : d' = du := hd'.unique hsu
            subst hdd
            exact ⟨e, he, by linarith⟩

/-- Any path from the start to an unsettled node is covered by some queue
entry of no greater cost. -/
theorem DijkstraInv.cover {g : Graph} {start endN : String}
    {pq : List PQEntry} {visited : List String}
    (inv : DijkstraInv g start endN pq visited) (hnn : NonnegWeights g) :
    ∀ (p : List String) (z : String) (c : ℚ), ValidPath g start z p c →
      z ∉ visited → ∃ e ∈ pq, e.time ≤ c := by
  intro p z c hvp hz
  rcases inv.start_ok with hs | ⟨e0, he0, hnode, htime⟩
  · obtain ⟨ds, hds⟩ := inv.settled start hs
    have hds0 : ds ≤ 0 := hds.2 [start] 0 (validPath_singleton g start)
    obtain ⟨e, he, hle⟩ := inv.frontier_path hnn p start z c ds hs hds hvp hz
    exact ⟨e, he, by linarith⟩
  · have hc0 : 0 ≤ c := chainTime_nonneg g hnn p c hvp.2.2
    exact ⟨e0, he0, by rw [htime]; exact hc0⟩

/-- Popping an already-settled entry preserves the invariant. -/
theorem DijkstraInv.skip {g : Graph} {start endN : String}
    {pq rest : List PQEntry} {e : PQEntry} {visited : List String}
    (inv : DijkstraInv g start endN pq visited)
    (hperm : pq.Perm (e :: rest)) (hvis : e.node ∈ visited) :
    DijkstraInv g start endN rest visited := by
  have hsub : ∀ e' ∈ rest, e' ∈ pq := fun e' h =>
    hperm.mem_iff.mpr (List.mem_cons_of_mem e h)
  have hkeep : ∀ e' ∈ pq, e'.node ∉ visited → e' ∈ rest := by
    intro e' h hn
    rcases List.mem_cons.mp (hperm.mem_iff.mp h) with h' | h'
    · exact absurd (h' ▸ hvis) hn
    · exact h'
  refine ⟨fun e' h => inv.paths e' (hsub e' h), inv.settled, ?_, ?_,
    inv.end_not⟩
  · rcases inv.start_ok with hs | ⟨e', he', hnode, htime⟩
    · exact Or.inl hs
    · by_cases hsv : start ∈ visited
      · exact Or.inl hsv
      · exact Or.inr ⟨e', hkeep e' he' (hnode ▸ hsv), hnode, htime⟩
  · intro u hu v t het hv
    obtain ⟨e', he', hnode, d, hd, hle⟩ := inv.frontier u hu v t het hv
    exact ⟨e', hkeep e' he' (hnode ▸ hv), hnode, d, hd, hle⟩

/-- A popped minimum entry for an unsettled node carries the shortest
distance to that node. -/
theorem DijkstraInv.pop_shortest {g : Graph} {start endN : String}
    {pq : List PQEntry} {e : PQEntry} {visited : List String}
    (inv : DijkstraInv g start endN pq visited) (hnn : NonnegWeights g)
    (hE : e ∈ pq) (hmin : ∀ e' ∈ pq, e.time ≤ e'.time)
    (hne : e.node ∉ visited) :
    IsShortest g start e.node e.time := by
  refine ⟨⟨e.path, inv.paths e hE⟩, ?_⟩
  intro p t' hvp
  obtain ⟨e', he', hle⟩ := inv.cover hnn p e.node t' hvp hne
  exact le_trans (hmin e' he') hle

/-- Settling a popped minimum entry preserves the invariant. -/
theorem DijkstraInv.settle {g : Graph} {start endN : String}
    {pq rest : List PQEntry} {e : PQEntry} {visited : List String}
    (inv : DijkstraInv g start endN pq visited) (hnn : NonnegWeights g)
    (hwf : GraphWF g) (hperm : pq.Perm (e :: rest))
    (hmin : ∀ e' ∈ pq, e.time ≤ e'.time)
    (hne : e.node ∉ visited) (hnend : e.node ≠ endN) :
    DijkstraInv g start endN (rest ++ dijkstraPushes g e (e.node :: visited))
      (e.node :: visited) := by
  have hE : e ∈ pq := hperm.mem_iff.mpr (List.mem_cons_self e rest)
  have hshort : IsShortest g start e.node e.time :=
    inv.pop_shortest hnn hE hmin hne
  have hsub : ∀ e' ∈ rest, e' ∈ pq := fun e' h =>
    hperm.mem_iff.mpr (List.mem_cons_of_mem e h)
  have hkeep : ∀ e' ∈ pq, e'.node ∉ (e.node :: visited) → e' ∈ rest := by
    intro e' h hn
    rcases List.mem_cons.mp (hperm.mem_iff.mp h) with h' | h'
    · exact absurd (h' ▸ List.mem_cons_self e.node visited) hn
    · exact h'
  have hpush : ∀ e' ∈ dijkstraPushes g e (e.node :: visited),
      ValidPath g start e'.node e'.path e'.time := by
    intro e' h
    rw [dijkstraPushes] at h
    obtain ⟨⟨v, t, d⟩, hmem, hf⟩ := List.mem_filterMap.mp h
    by_cases hvv : v ∈ e.node :: visited
    · rw [if_pos hvv] at hf; cases hf
    · rw [if_neg hvv] at hf
      injection hf with hf
      have hedge : edgeTime g e.node v = some t := graphWF_neighbors hwf hmem
      have := validPath_extend g start e.node v e.path e.time t
        (inv.paths e hE) hedge
      rw [← hf]
      exact this
  refine ⟨?_, ?_, ?_, ?_, ?_⟩
  · intro e' h
    rcases List.mem_append.mp h with h' | h'
    · exact inv.paths e' (hsub e' h')
    · exact hpush e' h'
  · intro u hu
    rcases List.mem_cons.mp hu with h' | h'
    · exact ⟨e.time, h' ▸ hshort⟩
    · exact inv.settled u h'
  · by_cases hsv : start ∈ e.node :: visited
    · exact Or.inl hsv
    · rcases inv.start_ok with hs | ⟨e', he', hnode, htime⟩
      · exact absurd (List.mem_cons_of_mem _ hs) hsv
      · refine Or.inr ⟨e', List.mem_append.mpr (Or.inl
          (hkeep e' he' (hnode ▸ hsv))), hnode, htime⟩
  · intro u hu v t het hv
    rcases List.mem_cons.mp hu with h' | h'
    · subst h'
      obtain ⟨d, hmem⟩ := edgeTime_mem_neighbors het
      refine ⟨⟨e.time + t, v, e.path ++ [v], e.dist + d⟩, ?_, rfl,
        e.time, hshort, le_refl _⟩
      refine List.mem_append.mpr (Or.inr ?_)
      rw [dijkstraPushes]
      exact List.mem_filterMap.mpr ⟨(v, t, d), hmem, by rw [if_neg hv]⟩
    · obtain ⟨e', he', hnode, d, hd, hle⟩ := inv.frontier u h' v t het
        (fun hvv => hv (List.mem_cons_of_mem _ hvv))
      exact ⟨e', List.mem_append.mpr (Or.inl (hkeep e' he' (hnode ▸ hv))),
        hnode, d, hd, hle⟩
  · intro hc
    rcases List.mem_cons.mp hc with h' | h'
    · exact hnend h'.symm
    · exact inv.end_not h'

/-! ## Termination measure: the fuel never runs out -/

theorem alLookup_isSome_iff_mem_keys {α : Type} (l : List (String × α))
    (k : String) : (alLookup l k).isSome ↔ k ∈ l.map Prod.fst := by
  induction l with
  | nil => simp [alLookup]
  | cons kv rest ih =>
    obtain ⟨k0, v0⟩ := kv
    rw [alLookup]
    by_cases h0 : k0 = k
    · subst h0
      simp
    · rw [if_neg h0]
      simp only [List.map_cons, List.mem_cons]
      rw [ih]
      constructor
      · exact Or.inr
      · intro h
        rcases h with h | h
        · exact absurd h.symm h0
        · exact h

/-- The loop's decreasing measure: remaining capacity of edge-dict entries
whose key is unsettled, plus the queue length. -/
def dijkstraMeasure (g : Graph) (pq : List PQEntry)
    (visited : List String) : ℕ :=
  ((g.edges.filter (fun kv => decide (kv.1 ∉ visited))).map
    (fun kv => kv.2.length + 1)).sum + pq.length

/-- Splitting the unsettled-entry sum at a newly settled key. -/
theorem dijkstraBudget_split (l : List (String × List (String × EdgeData)))
    (visited : List String) (n : String) (hn : n ∉ visited) :
    ((l.filter (fun kv => decide (kv.1 ∉ n :: visited))).map
        (fun kv => kv.2.length + 1)).sum +
      ((l.filter (fun kv => decide (kv.1 = n))).map
        (fun kv => kv.2.length + 1)).sum =
    ((l.filter (fun kv => decide (kv.1 ∉ visited))).map
        (fun kv => kv.2.length + 1)).sum := by
  induction l with
  | nil => simp
  | cons kv l ih =>
    simp only [List.filter_cons]
    by_cases h1 : kv.1 = n
    · have c1 : decide (kv.1 ∉ n :: visited) = false := by simp [h1]
      have c2 : decide (kv.1 = n) = true := by simp [h1]
      have c3 : decide (kv.1 ∉ visited) = true := by
        simp only [decide_eq_true_eq]
        rw [h1]; exact hn
      rw [c1, c2, c3]
      simp only [Bool.false_eq_true, if_false, if_true, List.map_cons,
        List.sum_cons]
      omega
    · by_cases h2 : kv.1 ∈ visited
      · have c1 : decide (kv.1 ∉ n :: visited) = false := by simp [h2]
        have c2 : decide (kv.1 = n) = false := by simp [h1]
        have c3 : decide (kv.1 ∉ visited) = false := by simp [h2]
        rw [c1, c2, c3]
        simp only [Bool.false_eq_true, if_false]
        omega
      · have c1 : decide (kv.1 ∉ n :: visited) = true := by simp [h1, h2]
        have c2 : decide (kv.1 = n) = false := by simp [h1]
        have c3 : decide (kv.1 ∉ visited) = true := by simp [h2]
        rw [c1, c2, c3]
        simp only [Bool.false_eq_true, if_false, if_true, List.map_cons,
          List.sum_cons]
        omega

theorem dijkstraMeasure_skip (g : Graph) (pq rest : List PQEntry)
    (visited : List String) (hlen : rest.length + 1 = pq.length) :
    dijkstraMeasure g rest visited + 1 = dijkstraMeasure g pq visited := by
  rw [dijkstraMeasure, dijkstraMeasure]
  omega

theorem dijkstraPushes_length_le (g : Graph) (e : PQEntry)
    (visited' : List String) :
    (dijkstraPushes g e visited').length ≤
      ((alLookup g.edges e.node).getD []).length := by
  rw [dijkstraPushes]
  calc ((get_neighbors g e.node).filterMap _).length
      ≤ (get_neighbors g e.node).length := List.length_filterMap_le _ _
    _ = ((alLookup g.edges e.node).getD []).length := by
        rw [get_neighbors, List.length_map]

theorem dijkstraMeasure_settle (g : Graph) (pq rest : List PQEntry)
    (e : PQEntry) (visited : List String)
    (hlen : rest.length + 1 = pq.length) (hne : e.node ∉ visited) :
    dijkstraMeasure g (rest ++ dijkstraPushes g e (e.node :: visited))
        (e.node :: visited) < dijkstraMeasure g pq visited := by
  have hpush := dijkstraPushes_length_le g e (e.node :: visited)
  have hsplit := dijkstraBudget_split g.edges visited e.node hne
  by_cases hsome : (alLookup g.edges e.node).isSome
  · obtain ⟨inner, hinner⟩ := Option.isSome_iff_exists.mp hsome
    have hmem : (e.node, inner) ∈ g.edges := alLookup_mem _ _ _ hinner
    have hmemeq : (e.node, inner) ∈
        g.edges.filter (fun kv => decide (kv.1 = e.node)) :=
      List.mem_filter.mpr ⟨hmem, by simp⟩
    have hsingle : inner.length + 1 ≤
        ((g.edges.filter (fun kv => decide (kv.1 = e.node))).map
          (fun kv => kv.2.length + 1)).sum :=
      List.single_le_sum (fun x _ => Nat.zero_le x) _
        (List.mem_map.mpr ⟨(e.node, inner), hmemeq, rfl⟩)
    have hdeg : ((alLookup g.edges e.node).getD []).length = inner.length := by
      rw [hinner]
      rfl
    rw [hdeg] at hpush
    rw [dijkstraMeasure, dijkstraMeasure, List.length_append]
    omega
  · have hnone : alLookup g.edges e.node = none :=
      Option.not_isSome_iff_eq_none.mp hsome
    have hzero : (dijkstraPushes g e (e.node :: visited)).length = 0 := by
      have h2 := hpush
      rw [hnone] at h2
      simpa using h2
    rw [dijkstraMeasure, dijkstraMeasure, List.length_append, hzero]
    omega

/-! ## Dijkstra correctness -/

/-- Characterization of a Dijkstra result: an infinite cost means no path at
all exists, and a finite cost is the shortest travel time, attained by the
returned path. -/
def DijkstraResultOk (g : Graph) (start endN : String)
    (res : List String × WithTop ℚ × WithTop ℚ) : Prop :=
  (res.2.1 = ⊤ → ¬ ∃ p t, ValidPath g start endN p t) ∧
  (∀ t : ℚ, res.2.1 = (t : WithTop ℚ) →
    IsShortest g start endN t ∧ ValidPath g start endN res.1 t)

theorem dijkstraLoop_spec (g : Graph) (start endN : String)
    (hnn : NonnegWeights g) (hwf : GraphWF g) :
    ∀ (fuel : ℕ) (pq : List PQEntry) (visited : List String),
      DijkstraInv g start endN pq visited →
      dijkstraMeasure g pq visited < fuel →
      DijkstraResultOk g start endN (dijkstraLoop g endN fuel pq visited) := by
  intro fuel
  induction fuel with
  | zero =>
    intro pq visited _ hm
    exact absurd hm (by omega)
  | succ fuel ih =>
    intro pq visited inv hm
    cases hpop : popMin pq with
    | none =>
      have hstep : dijkstraLoop g endN (fuel + 1) pq visited = ([], ⊤, ⊤) := by
        rw [dijkstraLoop, hpop]
      rw [hstep]
      constructor
      · intro _ hex
        obtain ⟨p, t, hvp⟩ := hex
        obtain ⟨e, he, _⟩ := inv.cover hnn p endN t hvp inv.end_not
        rw [(popMin_eq_none_iff pq).mp hpop] at he
        simp at he
      · intro t ht
        simp at ht
    | some er =>
      obtain ⟨e, rest⟩ := er
      obtain ⟨hE, hperm, hlen, hmin⟩ := popMin_spec pq e rest hpop
      by_cases hv : e.node ∈ visited
      · have hstep : dijkstraLoop g endN (fuel + 1) pq visited =
            dijkstraLoop g endN fuel rest visited := by
          rw [dijkstraLoop, hpop]
          simp [if_pos hv]
        rw [hstep]
        refine ih rest visited (inv.skip hperm hv) ?_
        have := dijkstraMeasure_skip g pq rest visited hlen
        omega
      · by_cases hend : e.node = endN
        · have hstep : dijkstraLoop g endN (fuel + 1) pq visited =
              (e.path, (e.time : WithTop ℚ), (e.dist : WithTop ℚ)) := by
            rw [dijkstraLoop, hpop]
            simp [if_neg hv, if_pos hend]
          rw [hstep]
          constructor
          · intro htop
            simp at htop
          · intro t ht
            simp only [WithTop.coe_inj] at ht
            have hsh := inv.pop_shortest hnn hE hmin hv
            rw [hend] at hsh
            have hvp := inv.paths e hE
            rw [hend] at hvp
            subst ht
            exact ⟨hsh, hvp⟩
        · have hstep : dijkstraLoop g endN (fuel + 1) pq visited =
              dijkstraLoop g endN fuel
                (rest ++ dijkstraPushes g e (e.node :: visited))
                (e.node :: visited) := by
            rw [dijkstraLoop, hpop]
            simp [if_neg hv, if_neg hend]
          rw [hstep]
          refine ih _ _ (inv.settle hnn hwf hperm hmin hv hend) ?_
          have := dijkstraMeasure_settle g pq rest e visited hlen hv
          omega

/-- Fuel bound: the initial measure is below `dijkstraFuel`. -/
theorem dijkstraMeasure_init_lt (g : Graph) (e0 : PQEntry) :
    dijkstraMeasure g [e0] [] < dijkstraFuel g := by
  rw [dijkstraMeasure, dijkstraFuel]
  have hall : g.edges.filter
      (fun kv => decide (kv.1 ∉ ([] : List String))) = g.edges :=
    List.filter_eq_self.mpr (fun a _ => by simp)
  rw [hall]
  simp only [List.length_singleton]
  omega

theorem dijkstra_spec (g : Graph) (start endN : String)
    (hnn : NonnegWeights g) (hwf : GraphWF g)
    (hs : (alLookup g.nodes start).isSome)
    (he : (alLookup g.nodes endN).isSome) :
    DijkstraResultOk g start endN (dijkstra g start endN) := by
  rw [dijkstra, if_pos ⟨hs, he⟩]
  apply dijkstraLoop_spec g start endN hnn hwf
  · refine ⟨?_, ?_, ?_, ?_, ?_⟩
    · intro e h
      rw [List.mem_singleton] at h
      subst h
      exact validPath_singleton g start
    · intro u h
      simp at h
    · exact Or.inr ⟨⟨0, start, [start], 0⟩, List.mem_singleton_self _,
        rfl, rfl⟩
    · intro u h
      simp at h
    · simp
  · exact dijkstraMeasure_init_lt g _

/-! ## Symmetry of shortest-path costs -/

/-- Every directed edge has a same-cost reverse edge. -/
def SymmetricTimes (g : Graph) : Prop :=
  ∀ u v, edgeTime g u v = edgeTime g v u

theorem validPath_reverse (g : Graph) (hsym : SymmetricTimes g) :
    ∀ (p : List String) (a b : String) (t : ℚ),
      ValidPath g a b p t → ValidPath g b a p.reverse t := by
  intro p
  induction p with
  | nil =>
    intro a b t h
    have := h.1
    simp at this
  | cons x p' ih =>
    intro a b t h
    obtain ⟨hh, hl, hc⟩ := h
    simp only [List.head?_cons, Option.some.injEq] at hh
    subst hh
    match p', hl, hc, ih with
    | [], hl, hc, _ =>
      simp only [List.getLast?_singleton, Option.some.injEq] at hl
      rw [chainTime_singleton] at hc
      injection hc with hc
      subst hl
      subst hc
      exact ⟨rfl, rfl, rfl⟩
    | y :: p'', hl, hc, ih =>
      rw [chainTime_cons_cons] at hc
      cases h1 : edgeTime g x y with
      | none => rw [h1] at hc; cases hc
      | some w =>
        cases h2 : chainTime g (y :: p'') with
        | none => rw [h1, h2] at hc; cases hc
        | some c =>
          rw [h1, h2] at hc
          injection hc with hc
          have hl' : (y :: p'').getLast? = some b := by
            rw [← hl, List.getLast?_cons_cons]
          have hrev := ih y b c ⟨rfl, hl', h2⟩
          have hxe : edgeTime g y x = some w := by
            rw [hsym y x]
            exact h1
          have hext := validPath_extend g b y x ((y :: p'').reverse) c w
            hrev hxe
          rw [List.reverse_cons]
          have ht : c + w = t := by rw [← hc]; ring
          rw [← ht]
          exact hext

theorem isShortest_symm {g : Graph} (hsym : SymmetricTimes g)
    {a b : String} {t : ℚ} (h : IsShortest g a b t) : IsShortest g b a t := by
  obtain ⟨⟨p, hp⟩, hmin⟩ := h
  exact ⟨⟨p.reverse, validPath_reverse g hsym p a b t hp⟩,
    fun q t' hq => hmin q.reverse t' (validPath_reverse g hsym q b a t' hq)⟩

theorem dijkstra_time_symm (g : Graph) (hnn : NonnegWeights g)
    (hwf : GraphWF g) (hsym : SymmetricTimes g) (a b : String) :
    (dijkstra g a b).2.1 = (dijkstra g b a).2.1 := by
  by_cases hok : (alLookup g.nodes a).isSome ∧ (alLookup g.nodes b).isSome
  · obtain ⟨ha, hb⟩ := hok
    have s1 := dijkstra_spec g a b hnn hwf ha hb
    have s2 := dijkstra_spec g b a hnn hwf hb ha
    cases ht1 : (dijkstra g a b).2.1 with
    | top =>
      cases ht2 : (dijkstra g b a).2.1 with
      | top => rfl
      | coe t2 =>
        obtain ⟨hshort, _⟩ := s2.2 t2 ht2
        obtain ⟨p, hp⟩ := hshort.1
        exact absurd ⟨p.reverse, t2, validPath_reverse g hsym p b a t2 hp⟩
          (s1.1 ht1)
    | coe t1 =>
      cases ht2 : (dijkstra g b a).2.1 with
      | top =>
        obtain ⟨hshort, _⟩ := s1.2 t1 ht1
        obtain ⟨p, hp⟩ := hshort.1
        exact absurd ⟨p.reverse, t1, validPath_reverse g hsym p a b t1 hp⟩
          (s2.1 ht2)
      | coe t2 =>
        obtain ⟨hs1, _⟩ := s1.2 t1 ht1
        obtain ⟨hs2, _⟩ := s2.2 t2 ht2
        have := hs1.unique (isShortest_symm hsym hs2)
        rw [this]
  · have hok' : ¬ ((alLookup g.nodes b).isSome ∧
        (alLookup g.nodes a).isSome) := fun h => hok ⟨h.2, h.1⟩
    rw [dijkstra, dijkstra, if_neg hok, if_neg hok']

/-! ## Properties of `build_graph` -/

theorem edgeTime_getD (g : Graph) (u v : String) :
    edgeTime g u v =
      (alLookup ((alLookup g.edges u).getD []) v).map EdgeData.travel_time := by
  cases h : alLookup g.edges u with
  | none =>
    rw [edgeTime, h]
    rfl
  | some inner =>
    rw [edgeTime, h]
    rfl

theorem edgeTime_add_edge (hav : ℚ → ℚ → ℚ → ℚ → ℚ) (g : Graph)
    (a b : String) (tt : ℚ) (d : Option ℚ) (u v : String) :
    edgeTime (add_edge hav g a b tt d) u v =
      if u = a ∧ v = b then some tt else edgeTime g u v := by
  rw [edgeTime_getD, edgeTime_getD]
  have hedges : (add_edge hav g a b tt d).edges =
      alInsert g.edges a (alInsert ((alLookup g.edges a).getD []) b
        ⟨tt, ((match d with
          | some dd => some dd
          | none =>
            match alLookup g.nodes a, alLookup g.nodes b with
            | some fa, ta =>
              match fa.latitude, fa.longitude with
              | some flat, some flon =>
                some (hav flat flon ((ta.bind NodeAttr.latitude).getD 0)
                  ((ta.bind NodeAttr.longitude).getD 0))
              | _, _ => none
            | none, _ => none) : Option ℚ).getD 0⟩) := rfl
  rw [hedges, alLookup_alInsert]
  by_cases hu : a = u
  · rw [if_pos hu]
    subst hu
    rw [Option.getD_some, alLookup_alInsert]
    by_cases hv : b = v
    · subst hv
      rw [if_pos rfl, if_pos ⟨rfl, rfl⟩]
      rfl
    · rw [if_neg hv]
      have : ¬ (a = a ∧ v = b) := fun h => hv h.2.symm
      rw [if_neg this]
  · rw [if_neg hu]
    have : ¬ (u = a ∧ v = b) := fun h => hu h.1.symm
    rw [if_neg this]

theorem edgeTime_add_node (g : Graph) (node_id : String) (attrs : NodeAttr)
    (u v : String) :
    edgeTime (add_node g node_id attrs) u v = edgeTime g u v := rfl

theorem symmetricTimes_add_edge_pair {g : Graph}
    (hav : ℚ → ℚ → ℚ → ℚ → ℚ) (a b : String) (tt : ℚ) (d : Option ℚ)
    (hsym : SymmetricTimes g) :
    SymmetricTimes (add_edge hav (add_edge hav g a b tt d) b a tt d) := by
  intro u v
  rw [edgeTime_add_edge, edgeTime_add_edge, edgeTime_add_edge,
    edgeTime_add_edge]
  split_ifs <;> first
    | rfl
    | exact hsym u v
    | tauto

theorem nonnegWeights_add_edge {g : Graph} (hav : ℚ → ℚ → ℚ → ℚ → ℚ)
    (a b : String) (tt : ℚ) (d : Option ℚ) (hg : NonnegWeights g)
    (htt : 0 ≤ tt) : NonnegWeights (add_edge hav g a b tt d) := by
  intro u v t h
  rw [edgeTime_add_edge] at h
  by_cases hc : u = a ∧ v = b
  · rw [if_pos hc] at h
    injection h with h
    rw [← h]
    exact htt
  · rw [if_neg hc] at h
    exact hg u v t h

theorem mem_alInsert {α : Type} (l : List (String × α)) (k : String) (v : α)
    (kv : String × α) (h : kv ∈ alInsert l k v) : kv = (k, v) ∨ kv ∈ l := by
  induction l with
  | nil => simpa [alInsert] using h
  | cons kv0 rest ih =>
    obtain ⟨k0, v0⟩ := kv0
    rw [alInsert] at h
    by_cases h0 : k0 = k
    · rw [if_pos h0] at h
      rcases List.mem_cons.mp h with h' | h'
      · subst h0
        exact Or.inl h'
      · exact Or.inr (List.mem_cons_of_mem _ h')
    · rw [if_neg h0] at h
      rcases List.mem_cons.mp h with h' | h'
      · exact Or.inr (h' ▸ List.mem_cons_self _ _)
      · rcases ih h' with h'' | h''
        · exact Or.inl h''
        · exact Or.inr (List.mem_cons_of_mem _ h'')

theorem keys_alInsert_subset {α : Type} (l : List (String × α)) (k : String)
    (v : α) (x : String) (h : x ∈ (alInsert l k v).map Prod.fst) :
    x = k ∨ x ∈ l.map Prod.fst := by
  obtain ⟨kv, hkv, hx⟩ := List.mem_map.mp h
  rcases mem_alInsert l k v kv hkv with h' | h'
  · exact Or.inl (by rw [← hx, h'])
  · exact Or.inr (List.mem_map.mpr ⟨kv, h', hx⟩)

theorem alNodup_alInsert {α : Type} (l : List (String × α)) (k : String)
    (v : α) (h : ALNodup l) : ALNodup (alInsert l k v) := by
  induction l with
  | nil => simp [alInsert, ALNodup]
  | cons kv0 rest ih =>
    obtain ⟨k0, v0⟩ := kv0
    rw [ALNodup, List.map_cons, List.nodup_cons] at h
    rw [alInsert]
    by_cases h0 : k0 = k
    · rw [if_pos h0]
      rw [ALNodup, List.map_cons, List.nodup_cons]
      exact ⟨h.1, h.2⟩
    · rw [if_neg h0]
      rw [ALNodup, List.map_cons, List.nodup_cons]
      refine ⟨?_, ih h.2⟩
      intro hmem
      rcases keys_alInsert_subset rest k v k0 hmem with h' | h'
      · exact h0 h'
      · exact h.1 h'

theorem add_edge_edges (hav : ℚ → ℚ → ℚ → ℚ → ℚ) (g : Graph)
    (a b : String) (tt : ℚ) (d : Option ℚ) :
    ∃ ed : EdgeData,
      (add_edge hav g a b tt d).edges =
        alInsert g.edges a
          (alInsert ((alLookup g.edges a).getD []) b ed) :=
  ⟨_, rfl⟩

theorem graphWF_add_edge {g : Graph} (hav : ℚ → ℚ → ℚ → ℚ → ℚ)
    (a b : String) (tt : ℚ) (d : Option ℚ) (hwf : GraphWF g) :
    GraphWF (add_edge hav g a b tt d) := by
  obtain ⟨ed, hedges⟩ := add_edge_edges hav g a b tt d
  have hinner : ALNodup (alInsert ((alLookup g.edges a).getD []) b ed) := by
    apply alNodup_alInsert
    cases hl : alLookup g.edges a with
    | none => simp [ALNodup]
    | some inner =>
      simp only [Option.getD_some]
      exact hwf.2 (a, inner) (alLookup_mem _ _ _ hl)
  constructor
  · rw [GraphWF] at hwf
    rw [hedges]
    exact alNodup_alInsert _ _ _ hwf.1
  · intro kv hkv
    rw [hedges] at hkv
    rcases mem_alInsert _ _ _ kv hkv with h' | h'
    · rw [h']
      exact hinner
    · exact hwf.2 kv h'

theorem graphWF_add_node {g : Graph} (node_id : String) (attrs : NodeAttr)
    (hwf : GraphWF g) : GraphWF (add_node g node_id attrs) := hwf

theorem nonnegWeights_add_node {g : Graph} (node_id : String)
    (attrs : NodeAttr) (hg : NonnegWeights g) :
    NonnegWeights (add_node g node_id attrs) := hg

theorem symmetricTimes_add_node {g : Graph} (node_id : String)
    (attrs : NodeAttr) (hg : SymmetricTimes g) :
    SymmetricTimes (add_node g node_id attrs) := hg

/-- Adding nodes never touches the edge dict. -/
theorem foldl_add_node_edges (cs : List Cauldron) :
    ∀ g : Graph,
      (cs.foldl (fun g c => add_node g c.id
        ⟨some c.latitude, some c.longitude, some "cauldron",
          some (c.max_volume.getD 1000)⟩) g).edges = g.edges := by
  induction cs with
  | nil => intro g; rfl
  | cons c cs ih =>
    intro g
    rw [List.foldl_cons, ih]
    rfl

theorem edgeTime_of_edges_nil {g : Graph} (h : g.edges = []) (u v : String) :
    edgeTime g u v = none := by
  rw [edgeTime_getD, h]
  simp [alLookup]

/-- Folding the double-insertion of feed edges preserves symmetry,
non-negativity and well-formedness. -/
theorem foldl_add_edge_props (hav : ℚ → ℚ → ℚ → ℚ → ℚ) :
    ∀ (es : List NetworkEdge) (g : Graph),
      (∀ e ∈ es, 0 ≤ e.travel_time_minutes) →
      SymmetricTimes g → NonnegWeights g → GraphWF g →
      SymmetricTimes (es.foldl (fun g e =>
          add_edge hav
            (add_edge hav g e.efrom e.eto e.travel_time_minutes e.distance_km)
            e.eto e.efrom e.travel_time_minutes e.distance_km) g) ∧
        NonnegWeights (es.foldl (fun g e =>
          add_edge hav
            (add_edge hav g e.efrom e.eto e.travel_time_minutes e.distance_km)
            e.eto e.efrom e.travel_time_minutes e.distance_km) g) ∧
        GraphWF (es.foldl (fun g e =>
          add_edge hav
            (add_edge hav g e.efrom e.eto e.travel_time_minutes e.distance_km)
            e.eto e.efrom e.travel_time_minutes e.distance_km) g) := by
  intro es
  induction es with
  | nil => intro g _ h1 h2 h3; exact ⟨h1, h2, h3⟩
  | cons e es ih =>
    intro g hnn h1 h2 h3
    rw [List.foldl_cons]
    have htt : 0 ≤ e.travel_time_minutes := hnn e (List.mem_cons_self e es)
    refine ih _ (fun e' he' => hnn e' (List.mem_cons_of_mem e he')) ?_ ?_ ?_
    · exact symmetricTimes_add_edge_pair hav e.efrom e.eto
        e.travel_time_minutes e.distance_km h1
    · exact nonnegWeights_add_edge hav e.eto e.efrom e.travel_time_minutes
        e.distance_km (nonnegWeights_add_edge hav e.efrom e.eto
          e.travel_time_minutes e.distance_km h2 htt) htt
    · exact graphWF_add_edge hav e.eto e.efrom e.travel_time_minutes
        e.distance_km (graphWF_add_edge hav e.efrom e.eto
          e.travel_time_minutes e.distance_km h3)

/-- The three graph-side hypotheses of Dijkstra correctness hold for every
graph `build_graph` constructs from a feed of non-negative travel times. -/
theorem build_graph_props (hav : ℚ → ℚ → ℚ → ℚ → ℚ)
    (network_edges : List NetworkEdge) (cauldrons : List Cauldron)
    (market : Market)
    (hnn : ∀ e ∈ network_edges, 0 ≤ e.travel_time_minutes) :
    SymmetricTimes (build_graph hav network_edges cauldrons market) ∧
      NonnegWeights (build_graph hav network_edges cauldrons market) ∧
      GraphWF (build_graph hav network_edges cauldrons market) := by
  rw [build_graph]
  apply foldl_add_edge_props hav network_edges _ hnn
  · intro u v
    rw [edgeTime_of_edges_nil (foldl_add_node_edges cauldrons _),
      edgeTime_of_edges_nil (foldl_add_node_edges cauldrons _)]
  · intro u v t h
    rw [edgeTime_of_edges_nil (foldl_add_node_edges cauldrons _)] at h
    cases h
  · constructor
    · rw [ALNodup, foldl_add_node_edges cauldrons _]
      simp [add_node]
    · intro kv hkv
      rw [foldl_add_node_edges cauldrons _] at hkv
      simp [add_node] at hkv

/-- C8: on every graph `build_graph` constructs from an undirected edge feed
(both directions of every edge inserted with the same travel time, all travel
times non-negative), the shortest-path travel-time cost returned by `dijkstra`
is symmetric: for every pair of nodes `a` and `b`, `dijkstra g a b` and
`dijkstra g b a` return equal costs. -/
theorem C8_dijkstra_cost_symmetric (hav : ℚ → ℚ → ℚ → ℚ → ℚ)
    (network_edges : List NetworkEdge) (cauldrons : List Cauldron)
    (market : Market)
    (hnn : ∀ e ∈ network_edges, 0 ≤ e.travel_time_minutes)
    (a b : String) :
    (dijkstra (build_graph hav network_edges cauldrons market) a b).2.1 =
      (dijkstra (build_graph hav network_edges cauldrons market) b a).2.1 := by
  obtain ⟨h1, h2, h3⟩ :=
    build_graph_props hav network_edges cauldrons market hnn
  exact dijkstra_time_symm _ h2 h3 h1 a b

def c8Hav : ℚ → ℚ → ℚ → ℚ → ℚ := fun _ _ _ _ => 0

def c8Edges : List NetworkEdge :=
  [⟨"market", "x", 5, some 2⟩, ⟨"x", "y", 3, none⟩]

def c8Cauldrons : List Cauldron :=
  [⟨"x", 1, 2, some 100⟩, ⟨"y", 3, 4, none⟩]

def c8Market : Market := ⟨0, 0⟩

theorem C8_dijkstra_cost_symmetric_witness :
    (∀ e ∈ c8Edges, 0 ≤ e.travel_time_minutes) ∧
      (dijkstra (build_graph c8Hav c8Edges c8Cauldrons c8Market)
          "y" "market").2.1 = ((8 : ℚ) : WithTop ℚ) ∧
      (dijkstra (build_graph c8Hav c8Edges c8Cauldrons c8Market)
          "market" "y").2.1 =
        (dijkstra (build_graph c8Hav c8Edges c8Cauldrons c8Market)
          "y" "market").2.1 := by
  have hnn : ∀ e ∈ c8Edges, 0 ≤ e.travel_time_minutes := by
    intro e he
    simp only [c8Edges, List.mem_cons, List.not_mem_nil, or_false] at he
    rcases he with h | h <;> rw [h] <;>
      exact of_decide_eq_true (by with_unfolding_all rfl)
  exact ⟨hnn, by with_unfolding_all rfl,
    C8_dijkstra_cost_symmetric c8Hav c8Edges c8Cauldrons c8Market hnn
      "market" "y"⟩

/-! ## `optimize_route` (nearest-neighbour heuristic over Dijkstra legs)

`unvisited = set(valid_cauldrons)` is modelled as a deduplicated list; a
Python `set` of strings iterates in an unspecified order, and every theorem
below is insensitive to that order (the counterexample has no ties). -/

/-- One iteration of the `for cauldron in unvisited` selection loop on the
accumulator `(nearest, min_time, nearest_path)`: compare the Dijkstra leg to
candidate `c`, taking a direct haversine estimate at 30 km/h when Dijkstra
finds no path. -/
def nnStep (hav : ℚ → ℚ → ℚ → ℚ → ℚ) (g : Graph) (current c : String)
    (acc : Option String × WithTop ℚ × List String) :
    Option String × WithTop ℚ × List String :=
  let res := dijkstra g current c
  if res.1 = [] ∨ res.2.1 = ⊤ then
    match alLookup g.nodes current, alLookup g.nodes c with
    | some cn, some dn =>
      match cn.latitude, cn.longitude, dn.latitude, dn.longitude with
      | some la1, some lo1, some la2, some lo2 =>
        let est : ℚ := hav la1 lo1 la2 lo2 / 30 * 60
        if (est : WithTop ℚ) < acc.2.1 then
          (some c, ((est : ℚ) : WithTop ℚ), [current, c])
        else acc
      | _, _, _, _ => acc
    | _, _ => acc
  else
    if res.2.1 < acc.2.1 then (some c, res.2.1, res.1) else acc

/-- The whole selection loop over the remaining candidates. -/
def nnScan (hav : ℚ → ℚ → ℚ → ℚ → ℚ) (g : Graph) (current : String) :
    List String → Option String × WithTop ℚ × List String →
      Option String × WithTop ℚ × List String
  | [], acc => acc
  | c :: rest, acc => nnScan hav g current rest (nnStep hav g current c acc)

/-- Distance added for one leg: the Dijkstra segment distance, replaced by
the direct haversine distance when infinite and both endpoints have
coordinates, and by `0` when still infinite. -/
def segDistAdd (hav : ℚ → ℚ → ℚ → ℚ → ℚ) (g : Graph)
    (current nearest : String) : ℚ :=
  let sd0 := (dijkstra g current nearest).2.2
  let sd1 :=
    if sd0 = ⊤ then
      match alLookup g.nodes current, alLookup g.nodes nearest with
      | some cn, some dn =>
        match cn.latitude, cn.longitude, dn.latitude, dn.longitude with
        | some la1, some lo1, some la2, some lo2 =>
          ((hav la1 lo1 la2 lo2 : ℚ) : WithTop ℚ)
        | _, _, _, _ => sd0
      | _, _ => sd0
    else sd0
  sd1.untop' 0

/-- The `while unvisited` loop.  Fuel is structural bookkeeping: each
iteration with a selected nearest removes it from `unvisited`, so
`unvisited.length` fuel always suffices. -/
def optimizeLoop (hav : ℚ → ℚ → ℚ → ℚ → ℚ) (g : Graph) :
    ℕ → List String → String → List String → ℚ → ℚ →
      List String × String × ℚ × ℚ
  | 0, route, current, _, tt, td => (route, current, tt, td)
  | fuel + 1, route, current, unvisited, tt, td =>
    if unvisited = [] then (route, current, tt, td)
    else
      let sel := nnScan hav g current unvisited (none, ⊤, [])
      match sel.1 with
      | none =>
        (route ++ unvisited.filter (fun c => decide (c ∉ route)),
          current, tt, td)
      | some nearest =>
        let min_time := sel.2.1
        let nearest_path := sel.2.2
        let route' := if 1 < nearest_path.length
          then route ++ nearest_path.drop 1 else route ++ [nearest]
        let tt' := tt + min_time.untop' 0
        let td' := if 1 < nearest_path.length
          then td + segDistAdd hav g current nearest else td
        optimizeLoop hav g fuel route' nearest (unvisited.erase nearest)
          tt' td'

/-- `[start_node, end_node] if start_node != end_node else [start_node],
0.0, 0.0`. -/
def marketFallback (start_node end_node : String) :
    List String × WithTop ℚ × WithTop ℚ :=
  (if start_node ≠ end_node then [start_node, end_node] else [start_node],
    ((0 : ℚ) : WithTop ℚ), ((0 : ℚ) : WithTop ℚ))

/-- `optimize_route(graph, cauldrons_to_visit, start_node, end_node)`:
nearest-neighbour tour with Dijkstra legs, return leg, and the final
ensure block. -/
def optimize_route (hav : ℚ → ℚ → ℚ → ℚ → ℚ) (g : Graph)
    (cauldrons_to_visit : List String) (start_node end_node : String) :
    List String × WithTop ℚ × WithTop ℚ :=
  if cauldrons_to_visit = [] then
    let res := dijkstra g start_node end_node
    if res.1 = [] then marketFallback start_node end_node else res
  else
    let valid := cauldrons_to_visit.filter
      (fun c => (alLookup g.nodes c).isSome)
    if valid = [] then marketFallback start_node end_node
    else
      let uv := valid.dedup
      let r0 := optimizeLoop hav g uv.length [start_node] start_node uv 0 0
      let route0 := r0.1
      let current := r0.2.1
      let tt0 := r0.2.2.1
      let td0 := r0.2.2.2
      let r1 :=
        if current ≠ end_node then
          let res := dijkstra g current end_node
          if res.1 ≠ [] ∧ res.2.1 ≠ ⊤ then
            (route0 ++ res.1.drop 1, tt0 + res.2.1.untop' 0,
              td0 + res.2.2.untop' 0)
          else
            let route1 := route0 ++ [end_node]
            match alLookup g.nodes current, alLookup g.nodes end_node with
            | some cn, some en =>
              match cn.latitude, cn.longitude, en.latitude, en.longitude with
              | some la1, some lo1, some la2, some lo2 =>
                let dd := hav la1 lo1 la2 lo2
                (route1, tt0 + dd / 30 * 60, td0 + dd)
              | _, _, _, _ => (route1, tt0, td0)
            | _, _ => (route1, tt0, td0)
        else (route0, tt0, td0)
      let route2 :=
        if r1.1.length = 1 ∧ r1.1.head? = some start_node then
          let r := r1.1 ++ valid
          if end_node ∈ r then r else r ++ [end_node]
        else r1.1
      (route2, ((r1.2.1 : ℚ) : WithTop ℚ), ((r1.2.2 : ℚ) : WithTop ℚ))

/-- The capacity filter of `optimize_courier_route`: greedily keep cauldrons
while the running volume fits, stopping at the first that does not. -/
def collectLoop (cap : ℚ) (vols : List (String × ℚ)) :
    List String → ℚ → List String × ℚ
  | [], v => ([], v)
  | c :: rest, v =>
    let volume := (alLookup vols c).getD 0
    if v + volume ≤ cap then
      let r := collectLoop cap vols rest (v + volume)
      (c :: r.1, r.2)
    else ([], v)

/-- `optimize_courier_route(graph, cauldrons_to_visit, courier_capacity,
cauldron_volumes)`: `(route, time, distance, collected_volume)`. -/
def optimize_courier_route (hav : ℚ → ℚ → ℚ → ℚ → ℚ) (g : Graph)
    (cauldrons_to_visit : List String) (courier_capacity : ℚ)
    (cauldron_volumes : List (String × ℚ)) :
    List String × WithTop ℚ × WithTop ℚ × ℚ :=
  let col := collectLoop courier_capacity cauldron_volumes
    cauldrons_to_visit 0
  if col.1 = [] then
    let res := dijkstra g "market" "market"
    (res.1, res.2.1, res.2.2, 0)
  else
    let r := optimize_route hav g col.1 "market" "market"
    (r.1, r.2.1, r.2.2, col.2)

def c2Hav : ℚ → ℚ → ℚ → ℚ → ℚ := fun _ _ _ _ => 0

/-- Triangle `market`–`A`–`B` with direct times `market↔A = 1`, `A↔B = 1`,
`market↔B = 5`: the shortest legs `market→B` and `B→market` pass through
`A`. -/
def c2Graph : Graph :=
  build_graph c2Hav
    [⟨"market", "A", 1, some 1⟩, ⟨"A", "B", 1, some 1⟩,
      ⟨"market", "B", 5, some 1⟩]
    [⟨"A", 0, 0, some 100⟩, ⟨"B", 0, 0, some 100⟩] ⟨0, 0⟩

/-- On the fully connected triangle `c2Graph`, the tour for the requested
sites `A` and `B` is `market, A, B, A, market`: the return leg `B → market`
passes through the already-visited `A`, so `A` appears twice, refuting
"visits every requested site exactly once". -/
theorem C2_counterexample :
    (optimize_route c2Hav c2Graph ["A", "B"] "market" "market").1 =
        ["market", "A", "B", "A", "market"] ∧
      List.count "A"
        (optimize_route c2Hav c2Graph ["A", "B"] "market" "market").1 = 2 :=
  ⟨by with_unfolding_all rfl, by with_unfolding_all rfl⟩

/-- When both endpoints exist and some path joins them, `dijkstra` returns a
finite cost and a valid path realizing it. -/
theorem dijkstra_found (g : Graph) (hnn : NonnegWeights g) (hwf : GraphWF g)
    {a b : String} (ha : (alLookup g.nodes a).isSome)
    (hb : (alLookup g.nodes b).isSome)
    (hex : ∃ p t, ValidPath g a b p t) :
    ∃ t : ℚ, (dijkstra g a b).2.1 = ((t : ℚ) : WithTop ℚ) ∧
      ValidPath g a b (dijkstra g a b).1 t := by
  have spec := dijkstra_spec g a b hnn hwf ha hb
  cases h : (dijkstra g a b).2.1 with
  | top => exact absurd hex (spec.1 h)
  | coe t => exact ⟨t, rfl, (spec.2 t h).2⟩

/-- On a fully connected graph every ordered pair of present nodes is joined
by a path (the singleton when equal, the direct edge otherwise). -/
theorem conn_exists_path (g : Graph)
    (conn : ∀ u v : String, (alLookup g.nodes u).isSome →
      (alLookup g.nodes v).isSome → u ≠ v → edgeTime g u v ≠ none)
    {a b : String} (ha : (alLookup g.nodes a).isSome)
    (hb : (alLookup g.nodes b).isSome) :
    ∃ p t, ValidPath g a b p t := by
  by_cases hab : a = b
  · subst hab
    exact ⟨[a], 0, validPath_singleton g a⟩
  · have h := conn a b ha hb hab
    cases he : edgeTime g a b with
    | none => exact absurd he h
    | some t =>
      refine ⟨[a, b], t + 0, rfl, rfl, ?_⟩
      rw [chainTime, he]
      rfl

/-- On a fully connected graph the selection loop always yields a nearest
candidate whose path runs from `current` to it. -/
theorem nnScan_spec (hav : ℚ → ℚ → ℚ → ℚ → ℚ) (g : Graph)
    (hnn : NonnegWeights g) (hwf : GraphWF g)
    (conn : ∀ u v : String, (alLookup g.nodes u).isSome →
      (alLookup g.nodes v).isSome → u ≠ v → edgeTime g u v ≠ none)
    (current : String) (hc : (alLookup g.nodes current).isSome) :
    ∀ (cands : List String) (acc : Option String × WithTop ℚ × List String),
      (∀ c ∈ cands, (alLookup g.nodes c).isSome) →
      (∀ n, acc.1 = some n → (alLookup g.nodes n).isSome ∧
        acc.2.2.head? = some current ∧ acc.2.2.getLast? = some n) →
      (acc.1 = none → acc.2.1 = ⊤) →
      (∀ n, (nnScan hav g current cands acc).1 = some n →
        ((alLookup g.nodes n).isSome ∧
          (nnScan hav g current cands acc).2.2.head? = some current ∧
          (nnScan hav g current cands acc).2.2.getLast? = some n) ∧
        (n ∈ cands ∨ acc.1 = some n)) ∧
      ((cands ≠ [] ∨ ∃ n, acc.1 = some n) →
        ∃ n, (nnScan hav g current cands acc).1 = some n) := by
  intro cands
  induction cands with
  | nil =>
    intro acc hcand hacc htop
    rw [nnScan]
    refine ⟨fun n hn => ⟨hacc n hn, Or.inr hn⟩, ?_⟩
    rintro (h | h)
    · exact absurd rfl h
    · exact h
  | cons c rest ih =>
    intro acc hcand hacc htop
    have hcpres : (alLookup g.nodes c).isSome :=
      hcand c (List.mem_cons_self c rest)
    obtain ⟨t, ht, hvp⟩ := dijkstra_found g hnn hwf hc hcpres
      (conn_exists_path g conn hc hcpres)
    have hne : ¬ ((dijkstra g current c).1 = [] ∨
        (dijkstra g current c).2.1 = ⊤) := by
      rintro (h | h)
      · rw [h] at hvp
        exact Option.noConfusion hvp.1
      · rw [h] at ht
        exact WithTop.top_ne_coe ht
    have hstep : nnStep hav g current c acc =
        if (dijkstra g current c).2.1 < acc.2.1 then
          (some c, (dijkstra g current c).2.1, (dijkstra g current c).1)
        else acc := by
      rw [nnStep, if_neg hne]
    rw [nnScan, hstep]
    by_cases hlt : (dijkstra g current c).2.1 < acc.2.1
    · rw [if_pos hlt]
      have hih := ih (some c, (dijkstra g current c).2.1,
          (dijkstra g current c).1)
        (fun c' hc' => hcand c' (List.mem_cons_of_mem c hc'))
        (fun n hn => by
          injection hn with hn
          subst hn
          exact ⟨hcpres, hvp.1, hvp.2.1⟩)
        (fun h => Option.noConfusion h)
      refine ⟨fun n hn => ?_, fun _ => hih.2 (Or.inr ⟨c, rfl⟩)⟩
      obtain ⟨hprops, hmem⟩ := hih.1 n hn
      refine ⟨hprops, ?_⟩
      rcases hmem with h | h
      · exact Or.inl (List.mem_cons_of_mem c h)
      · injection h with h
        exact Or.inl (h ▸ List.mem_cons_self c rest)
    · rw [if_neg hlt]
      have hsome : ∃ n, acc.1 = some n := by
        cases hacc1 : acc.1 with
        | none =>
          rw [ht, htop hacc1] at hlt
          exact absurd (WithTop.coe_lt_top t) hlt
        | some n => exact ⟨n, rfl⟩
      have hih := ih acc
        (fun c' hc' => hcand c' (List.mem_cons_of_mem c hc')) hacc htop
      refine ⟨fun n hn => ?_, fun _ => hih.2 (Or.inr hsome)⟩
      obtain ⟨hprops, hmem⟩ := hih.1 n hn
      refine ⟨hprops, ?_⟩
      rcases hmem with h | h
      · exact Or.inl (List.mem_cons_of_mem c h)
      · exact Or.inr h

/-- What the nearest-neighbour loop guarantees about its result `r`:
the route keeps its head, absorbs every unvisited and already-routed node,
ends at the final current node (which is present), and never shrinks —
growing strictly when work remains. -/
def LoopOk (g : Graph) (route unvisited : List String)
    (r : List String × String × ℚ × ℚ) : Prop :=
  r.1.head? = route.head? ∧
  (∀ c ∈ unvisited, c ∈ r.1) ∧
  (∀ c ∈ route, c ∈ r.1) ∧
  r.1.getLast? = some r.2.1 ∧
  (alLookup g.nodes r.2.1).isSome ∧
  route.length ≤ r.1.length ∧
  (unvisited ≠ [] → route.length < r.1.length)

theorem optimizeLoop_spec (hav : ℚ → ℚ → ℚ → ℚ → ℚ) (g : Graph)
    (hnn : NonnegWeights g) (hwf : GraphWF g)
    (conn : ∀ u v : String, (alLookup g.nodes u).isSome →
      (alLookup g.nodes v).isSome → u ≠ v → edgeTime g u v ≠ none) :
    ∀ (fuel : ℕ) (unvisited route : List String) (current : String)
      (tt td : ℚ),
      unvisited.length ≤ fuel →
      (∀ c ∈ unvisited, (alLookup g.nodes c).isSome) →
      (alLookup g.nodes current).isSome →
      route.getLast? = some current →
      LoopOk g route unvisited
        (optimizeLoop hav g fuel route current unvisited tt td) := by
  intro fuel
  induction fuel with
  | zero =>
    intro unvisited route current tt td hlen hu hc hlast
    have hu0 : unvisited = [] := List.length_eq_zero.mp (Nat.le_zero.mp hlen)
    subst hu0
    rw [optimizeLoop]
    exact ⟨rfl, by simp, fun c h => h, hlast, hc, le_refl _,
      fun h => absurd rfl h⟩
  | succ fuel ih =>
    intro unvisited route current tt td hlen hu hc hlast
    by_cases hne : unvisited = []
    · subst hne
      rw [optimizeLoop, if_pos rfl]
      exact ⟨rfl, by simp, fun c h => h, hlast, hc, le_refl _,
        fun h => absurd rfl h⟩
    · have hrne : route ≠ [] := by
        intro h
        rw [h] at hlast
        exact Option.noConfusion hlast
      have hscan := nnScan_spec hav g hnn hwf conn current hc unvisited
        (none, ⊤, []) hu (fun n hn => Option.noConfusion hn) (fun _ => rfl)
      obtain ⟨n, hn⟩ := hscan.2 (Or.inl hne)
      obtain ⟨⟨hpres_n, hhead, hlastp⟩, hmemn⟩ := hscan.1 n hn
      have hmem' : n ∈ unvisited := by
        rcases hmemn with h | h
        · exact h
        · exact Option.noConfusion h
      rcases hsel : nnScan hav g current unvisited (none, ⊤, []) with
        ⟨o, mt, pth⟩
      rw [hsel] at hn hhead hlastp
      simp only at hn hhead hlastp
      simp only [optimizeLoop, if_neg hne, hsel, hn]
      -- the selected branch
      have hlen' : (unvisited.erase n).length ≤ fuel := by
        rw [List.length_erase_of_mem hmem']
        have : 1 ≤ unvisited.length := by
          cases unvisited with
          | nil => exact absurd rfl hne
          | cons a l => simp
        omega
      have hu' : ∀ c ∈ unvisited.erase n, (alLookup g.nodes c).isSome :=
        fun c hc' => hu c (List.mem_of_mem_erase hc')
      by_cases hlong : 1 < pth.length
      · -- the path has at least two nodes: extend with its tail
        match pth, hlong with
        | a :: b :: tl, _ =>
          have hhead' : a = current := Option.some.inj hhead
          have hlast2 : (b :: tl).getLast? = some n :=
            List.getLast?_cons_cons ▸ hlastp
          have hlenc : 1 < (a :: b :: tl).length := by simp
          rw [if_pos hlenc, if_pos hlenc]
          have hdrop : List.drop 1 (a :: b :: tl) = b :: tl := rfl
          rw [hdrop]
          have hroute' : (route ++ (b :: tl)).getLast? = some n := by
            rw [List.getLast?_append_of_ne_nil route (by simp)]
            exact hlast2
          have hL := ih (unvisited.erase n) (route ++ (b :: tl)) n
            (tt + mt.untop' 0) (td + segDistAdd hav g current n)
            hlen' hu' hpres_n hroute'
          obtain ⟨l1, l2, l3, l4, l5, l6, l7⟩ := hL
          refine ⟨?_, ?_, ?_, l4, l5, ?_, ?_⟩
          · rw [l1, List.head?_append_of_ne_nil route hrne]
          · intro x hx
            by_cases hxn : x = n
            · subst hxn
              exact l3 x (List.mem_of_mem_getLast? hroute')
            · exact l2 x ((List.mem_erase_of_ne hxn).mpr hx)
          · intro x hx
            exact l3 x (List.mem_append_left _ hx)
          · calc route.length ≤ (route ++ (b :: tl)).length := by
                  simp
              _ ≤ _ := l6
          · intro _
            calc route.length < (route ++ (b :: tl)).length := by
                  simp
              _ ≤ _ := l6
      · -- single-node path: append the nearest node itself
        rw [if_neg hlong, if_neg hlong]
        have hroute' : (route ++ [n]).getLast? = some n :=
          List.getLast?_concat route
        have hL := ih (unvisited.erase n) (route ++ [n]) n
          (tt + mt.untop' 0) td hlen' hu' hpres_n hroute'
        obtain ⟨l1, l2, l3, l4, l5, l6, l7⟩ := hL
        refine ⟨?_, ?_, ?_, l4, l5, ?_, ?_⟩
        · rw [l1, List.head?_append_of_ne_nil route hrne]
        · intro x hx
          by_cases hxn : x = n
          · subst hxn
            exact l3 x (List.mem_append_right _ (List.mem_singleton_self x))
          · exact l2 x ((List.mem_erase_of_ne hxn).mpr hx)
        · intro x hx
          exact l3 x (List.mem_append_left _ hx)
        · calc route.length ≤ (route ++ [n]).length := by simp
            _ ≤ _ := l6
        · intro _
          calc route.length < (route ++ [n]).length := by simp
            _ ≤ _ := l6

/-- C2 (amended): for every non-empty set of requested sites on a fully
connected graph (every present pair joined by an edge, weights non-negative,
dicts well-formed, endpoints present), the route returned by
`optimize_route` starts at the start site, ends at the end site, and
contains every requested site at least once — but, as `C2_counterexample`
shows, possibly more than once, because Dijkstra legs pass through
already-visited sites. -/
theorem C2_route_visits_each_requested_site
    (hav : ℚ → ℚ → ℚ → ℚ → ℚ) (g : Graph)
    (hnn : NonnegWeights g) (hwf : GraphWF g)
    (visit : List String) (start_node end_node : String)
    (hvne : visit ≠ [])
    (hpres : ∀ c ∈ visit, (alLookup g.nodes c).isSome)
    (hs : (alLookup g.nodes start_node).isSome)
    (he : (alLookup g.nodes end_node).isSome)
    (conn : ∀ u v : String, (alLookup g.nodes u).isSome →
      (alLookup g.nodes v).isSome → u ≠ v → edgeTime g u v ≠ none) :
    (optimize_route hav g visit start_node end_node).1.head? =
        some start_node ∧
      (∀ c ∈ visit,
        c ∈ (optimize_route hav g visit start_node end_node).1) ∧
      (optimize_route hav g visit start_node end_node).1.getLast? =
        some end_node := by
  have hfilter : visit.filter (fun c => (alLookup g.nodes c).isSome) =
      visit := List.filter_eq_self.mpr hpres
  simp only [optimize_route]
  rw [if_neg hvne, hfilter, if_neg hvne]
  have huv_sub : ∀ c ∈ visit.dedup, (alLookup g.nodes c).isSome :=
    fun c hc => hpres c (List.mem_dedup.mp hc)
  have hL := optimizeLoop_spec hav g hnn hwf conn visit.dedup.length
    visit.dedup [start_node] start_node 0 0 (le_refl _) huv_sub hs rfl
  generalize hr0 : optimizeLoop hav g visit.dedup.length [start_node]
    start_node visit.dedup 0 0 = r0
  rw [hr0] at hL
  obtain ⟨l1, l2, l3, l4, l5, l6, l7⟩ := hL
  have huvne : visit.dedup ≠ [] := fun h => hvne ((List.dedup_eq_nil visit).mp h)
  have hlen2 : 1 < r0.1.length := l7 huvne
  have hr0ne : r0.1 ≠ [] := by
    intro h
    rw [h] at hlen2
    simp at hlen2
  by_cases hce : r0.2.1 = end_node
  · have hce' : ¬ (r0.2.1 ≠ end_node) := fun h => h hce
    rw [if_neg hce']
    dsimp only
    rw [if_neg (fun h => absurd h.1 (by omega))]
    exact ⟨l1, fun c hc => l2 c (List.mem_dedup.mpr hc), hce ▸ l4⟩
  · obtain ⟨t, ht, hvp⟩ := dijkstra_found g hnn hwf l5 he
      (conn_exists_path g conn l5 he)
    have hne1 : (dijkstra g r0.2.1 end_node).1 ≠ [] := by
      intro h
      rw [h] at hvp
      exact Option.noConfusion hvp.1
    have hne2 : (dijkstra g r0.2.1 end_node).2.1 ≠ ⊤ := by
      rw [ht]
      exact WithTop.coe_ne_top
    have hcond : (dijkstra g r0.2.1 end_node).1 ≠ [] ∧
        (dijkstra g r0.2.1 end_node).2.1 ≠ ⊤ := ⟨hne1, hne2⟩
    rw [if_pos hce, if_pos hcond]
    generalize hp : (dijkstra g r0.2.1 end_node).1 = p
    rw [hp] at hvp hne1
    match p, hne1 with
    | [x], _ =>
      have h1 : x = r0.2.1 := Option.some.inj hvp.1
      have h2 : x = end_node := Option.some.inj hvp.2.1
      exact absurd (h1 ▸ h2) hce
    | x :: y :: tl, _ =>
      have hdrop : List.drop 1 (x :: y :: tl) = y :: tl := rfl
      rw [hdrop]
      dsimp only
      have hlast2 : (y :: tl).getLast? = some end_node :=
        List.getLast?_cons_cons ▸ hvp.2.1
      rw [if_neg (fun h => by
        have h1 := h.1
        simp only [List.length_append, List.length_cons] at h1
        omega)]
      refine ⟨?_, ?_, ?_⟩
      · rw [List.head?_append_of_ne_nil r0.1 hr0ne]
        exact l1
      · intro c hc
        exact List.mem_append_left _ (l2 c (List.mem_dedup.mpr hc))
      · rw [List.getLast?_append_of_ne_nil r0.1 (by simp)]
        exact hlast2

theorem C2_route_visits_each_requested_site_witness :
    (["A", "B"] : List String) ≠ [] ∧
      "A" ∈ (optimize_route c2Hav c2Graph ["A", "B"] "market" "market").1 ∧
      "B" ∈ (optimize_route c2Hav c2Graph ["A", "B"] "market" "market").1 ∧
      (optimize_route c2Hav c2Graph ["A", "B"] "market" "market").1.head? =
        some "market" ∧
      (optimize_route c2Hav c2Graph ["A", "B"] "market"
        "market").1.getLast? = some "market" := by
  obtain ⟨hsym, hnn, hwf⟩ := build_graph_props c2Hav
    [⟨"market", "A", 1, some 1⟩, ⟨"A", "B", 1, some 1⟩,
      ⟨"market", "B", 5, some 1⟩]
    [⟨"A", 0, 0, some 100⟩, ⟨"B", 0, 0, some 100⟩] ⟨0, 0⟩
    (of_decide_eq_true (by with_unfolding_all rfl))
  have hconn0 : ∀ u ∈ c2Graph.nodes.map Prod.fst,
      ∀ v ∈ c2Graph.nodes.map Prod.fst,
      u = v ∨ (edgeTime c2Graph u v).isSome = true :=
    of_decide_eq_true (by with_unfolding_all rfl)
  have hconn : ∀ u v : String, (alLookup c2Graph.nodes u).isSome →
      (alLookup c2Graph.nodes v).isSome → u ≠ v →
      edgeTime c2Graph u v ≠ none := by
    intro u v hu hv huv h
    have hu' := (alLookup_isSome_iff_mem_keys c2Graph.nodes u).mp hu
    have hv' := (alLookup_isSome_iff_mem_keys c2Graph.nodes v).mp hv
    rcases hconn0 u hu' v hv' with h' | h'
    · exact huv h'
    · rw [h] at h'
      exact Bool.noConfusion h'
  have h := C2_route_visits_each_requested_site c2Hav c2Graph hnn hwf
    ["A", "B"] "market" "market" (by simp)
    (of_decide_eq_true (by with_unfolding_all rfl))
    (of_decide_eq_true (by with_unfolding_all rfl))
    (of_decide_eq_true (by with_unfolding_all rfl)) hconn
  exact ⟨by simp, h.2.1 "A" (by simp), h.2.1 "B" (by simp), h.1, h.2.2⟩

/-! ## Scheduler (`scheduling.py`)

`create_daily_schedule` is embedded with the data it fetches passed as
arguments (cauldrons, couriers, market, network feed, reading frame, clock).
The assignment records keep the schedule-relevant fields; the `start`/`end`
ISO timestamps, `courier_id` strings and the `int()` truncations of the
minute counts are pure formatting and are not modelled.
`calculate_distance` is the same haversine formula as the route module's and
is represented by the same `hav` parameter. -/

structure Courier where
  name : String
deriving Repr, DecidableEq

/-- The per-cauldron dict built by `categorize_cauldrons`. -/
structure CauldronData where
  cauldron_id : String
  brew_rate : ℚ
  current_level : ℚ
  max_volume : ℚ
  current_percentage : ℚ
  time_to_80 : Option ℚ
  latitude : ℚ
  longitude : ℚ
deriving Repr, DecidableEq

/-- A pickup need of `identify_low_rate_pickups` (category is always
`'Low Rate (80%)'`). -/
structure PickupNeed where
  cauldron_id : String
  volume_to_collect : ℚ
  current_level : ℚ
  max_volume : ℚ
  latitude : ℚ
  longitude : ℚ
deriving Repr, DecidableEq

structure Assignment where
  courier : String
  route : List String
  cauldrons_visited : List String
  travel_time_minutes : WithTop ℚ
  volume_collected : ℚ
  total_brew_collected : ℚ
  distance_km : WithTop ℚ
  category : String
deriving Repr, DecidableEq

/-- The schedule dict; `unassigned_pickups` is `none` when the key is absent
(the empty-reference early returns do not set it). -/
structure SchedulePlan where
  date : String
  couriers_needed : ℕ
  assignments : List Assignment
  unassigned_pickups : Option ℕ
  total_distance_km : WithTop ℚ
deriving Repr, DecidableEq

/-- `categorize_cauldrons(forecasts, cauldrons)`: split by the high-rate
threshold `4.166` L/hour. -/
def categorize_cauldrons (forecasts : List Forecast)
    (cauldrons : List Cauldron) : List CauldronData × List CauldronData :=
  let cauldron_map := cauldrons.foldl (fun m c => alInsert m c.id c) []
  let datas := forecasts.map (fun f =>
    let info := alLookup cauldron_map f.cauldron_id
    { cauldron_id := f.cauldron_id,
      brew_rate := f.brew_rate_liters_per_hour,
      current_level := f.current_level,
      max_volume := f.max_volume,
      current_percentage := f.current_percentage,
      time_to_80 := f.time_to_80_percent,
      latitude := (info.map Cauldron.latitude).getD 0,
      longitude := (info.map Cauldron.longitude).getD 0 : CauldronData })
  (datas.filter (fun d => decide (4166 / 1000 < d.brew_rate)),
    datas.filter (fun d => decide (¬ 4166 / 1000 < d.brew_rate)))

/-- `identify_low_rate_pickups(low_rate_cauldrons, target_date)`: pick up
what is at 80 % now, or will reach 80 % within 24 hours. -/
def identify_low_rate_pickups (low_rate_cauldrons : List CauldronData) :
    List PickupNeed :=
  low_rate_cauldrons.filterMap (fun c =>
    if 80 ≤ c.current_percentage then
      some ⟨c.cauldron_id, min c.current_level (c.max_volume * 0.8),
        c.current_level, c.max_volume, c.latitude, c.longitude⟩
    else if 0 < c.brew_rate then
      let remaining_to_80 := c.max_volume * 0.8 - c.current_level
      let time_to_80h := remaining_to_80 / c.brew_rate
      if time_to_80h ≤ 24 then
        let hours_until_pickup := min 24 time_to_80h
        let volume_at_pickup := c.current_level + c.brew_rate * hours_until_pickup
        some ⟨c.cauldron_id, min volume_at_pickup (c.max_volume * 0.8),
          c.current_level, c.max_volume, c.latitude, c.longitude⟩
      else none
    else none)

/-- `optimize_witch_route(graph, cauldrons_to_visit, volumes, courier_name)`:
route plus the summed dict volumes of the requested cauldrons. -/
def optimize_witch_route (hav : ℚ → ℚ → ℚ → ℚ → ℚ) (g : Graph)
    (cauldrons_to_visit : List String) (volumes : List (String × ℚ)) :
    List String × WithTop ℚ × WithTop ℚ × ℚ :=
  if cauldrons_to_visit = [] then
    let res := dijkstra g "market" "market"
    (res.1, res.2.1, res.2.2, 0)
  else
    let r := optimize_route hav g cauldrons_to_visit "market" "market"
    (r.1, r.2.1, r.2.2,
      (cauldrons_to_visit.map (fun cid => (alLookup volumes cid).getD 0)).sum)

/-- `couriers[courier_index % len(couriers)]['name']` with the `Witch n`
fallback. -/
def courierName (couriers : List Courier) (idx : ℕ) : String :=
  if couriers.isEmpty then "Witch " ++ toString (idx + 1)
  else ((couriers.get? (idx % couriers.length)).map Courier.name).getD ""

/-- One high-rate witch assignment (route rebuilt `market → cauldron →
market` when the optimizer's route misses the cauldron or is trivial). -/
def highRateAssignment (hav : ℚ → ℚ → ℚ → ℚ → ℚ) (g : Graph)
    (couriers : List Courier) (idx : ℕ) (cauldron_id : String)
    (witch_volume : ℚ) : Assignment :=
  let r := optimize_witch_route hav g [cauldron_id] [(cauldron_id, witch_volume)]
  let route := if cauldron_id ∉ r.1 ∨ r.1.length ≤ 1
    then ["market", cauldron_id, "market"] else r.1
  { courier := courierName couriers idx, route := route,
    cauldrons_visited := [cauldron_id], travel_time_minutes := r.2.1,
    volume_collected := r.2.2.2, total_brew_collected := r.2.2.2,
    distance_km := r.2.2.1, category := "High Rate" }

/-- The per-cauldron body of the high-rate loop: a 70 L witch then a 30 L
witch, each only when its volume is positive; threads `(assignments,
courier_index)`. -/
def highRateStep (hav : ℚ → ℚ → ℚ → ℚ → ℚ) (g : Graph)
    (couriers : List Courier) (acc : List Assignment × ℕ)
    (c : CauldronData) : List Assignment × ℕ :=
  let volume_to_collect := min c.current_level (c.max_volume * 0.8)
  let first_witch_volume := min 70 volume_to_collect
  let second_witch_volume := min 30 (volume_to_collect - first_witch_volume)
  let acc1 := if 0 < first_witch_volume
    then (acc.1 ++ [highRateAssignment hav g couriers acc.2 c.cauldron_id
      first_witch_volume], acc.2 + 1)
    else acc
  if 0 < second_witch_volume
  then (acc1.1 ++ [highRateAssignment hav g couriers acc1.2 c.cauldron_id
    second_witch_volume], acc1.2 + 1)
  else acc1

/-- The piggyback body for one existing assignment: with more than 10 L
spare below the 100 L capacity, the nearest remaining pickup that fits the
spare capacity is appended and the route re-optimized with estimated volumes
(50 L per high-rate stop, 30 L per low-rate stop) for the old stops. -/
def piggybackStep (hav : ℚ → ℚ → ℚ → ℚ → ℚ) (g : Graph) (a : Assignment)
    (remaining : List PickupNeed) : Assignment × List PickupNeed :=
  let spare := 100 - a.total_brew_collected
  if 10 < spare then
    let last_cauldron_id := if 1 < a.route.length
      then a.route.getD (a.route.length - 2) "" else "market"
    let best := remaining.foldl
      (fun (b : Option PickupNeed × WithTop ℚ) p =>
        if p.volume_to_collect ≤ spare then
          match alLookup g.nodes last_cauldron_id with
          | some ln =>
            let d := hav (ln.latitude.getD 0) (ln.longitude.getD 0)
              p.latitude p.longitude
            if ((d : ℚ) : WithTop ℚ) < b.2 then (some p, ((d : ℚ) : WithTop ℚ))
            else b
          | none => b
        else b) (none, ⊤)
    match best.1 with
    | none => (a, remaining)
    | some bp =>
      let visited' := a.cauldrons_visited ++ [bp.cauldron_id]
      let volumes := visited'.foldl (fun m cid =>
        alInsert m cid (if cid = bp.cauldron_id then bp.volume_to_collect
          else if a.category = "High Rate" then (50 : ℚ) else 30)) []
      let r := optimize_witch_route hav g visited' volumes
      let a' := { a with
        cauldrons_visited := visited'
        route := r.1
        travel_time_minutes := r.2.1
        distance_km := r.2.2.1
        total_brew_collected := r.2.2.2
        volume_collected := r.2.2.2 }
      (a', remaining.erase bp)
  else (a, remaining)

/-- The `for assignment in assignments` piggyback pass, threading the
remaining pickups. -/
def piggybackFold (hav : ℚ → ℚ → ℚ → ℚ → ℚ) (g : Graph) :
    List Assignment → List PickupNeed → List Assignment × List PickupNeed
  | [], rem => ([], rem)
  | a :: rest, rem =>
    let s := piggybackStep hav g a rem
    let t := piggybackFold hav g rest s.2
    (s.1 :: t.1, t.2)

/-- The greedy packing of one new witch: every remaining pickup that still
fits under the running total. -/
def packPickups (cap : ℚ) (remaining : List PickupNeed) :
    List String × List (String × ℚ) × ℚ :=
  remaining.foldl (fun acc p =>
    if acc.2.2 + p.volume_to_collect ≤ cap then
      (acc.1 ++ [p.cauldron_id],
        alInsert acc.2.1 p.cauldron_id p.volume_to_collect,
        acc.2.2 + p.volume_to_collect)
    else acc) ([], [], 0)

/-- The `while remaining_pickups` loop assigning leftovers to new witches;
fuel is structural bookkeeping (each round removes at least one pickup). -/
def newWitchLoop (hav : ℚ → ℚ → ℚ → ℚ → ℚ) (g : Graph)
    (couriers : List Courier) :
    ℕ → List PickupNeed → ℕ → List Assignment →
      List Assignment × List PickupNeed
  | 0, remaining, _, acc => (acc, remaining)
  | fuel + 1, remaining, idx, acc =>
    if remaining = [] then (acc, remaining)
    else
      let sel := packPickups 100 remaining
      if sel.1 = [] then (acc, remaining)
      else
        let r := optimize_witch_route hav g sel.1 sel.2.1
        let route_cauldrons := r.1.filter (fun node => decide (node ≠ "market"))
        let missing := sel.1.filter (fun cid => decide (cid ∉ route_cauldrons))
        let route := if missing ≠ [] ∨ r.1.length ≤ 1
          then "market" :: sel.1 ++ ["market"] else r.1
        let a : Assignment :=
          { courier := courierName couriers idx
            route := route
            cauldrons_visited := sel.1
            travel_time_minutes := r.2.1
            volume_collected := r.2.2.2
            total_brew_collected := r.2.2.2
            distance_km := r.2.2.1
            category := "Low Rate (80%)" }
        newWitchLoop hav g couriers fuel
          (remaining.filter (fun p => decide (p.cauldron_id ∉ sel.1)))
          (idx + 1) (acc ++ [a])

/-- The final formatting pass: rebuild incomplete routes from
`cauldrons_visited` and report `total_brew_collected` as the collected
volume. -/
def formatAssignment (a : Assignment) : Assignment :=
  let route_cauldrons := a.route.filter (fun node => decide (node ≠ "market"))
  let missing := a.cauldrons_visited.filter
    (fun cid => decide (cid ∉ route_cauldrons))
  let route :=
    if a.route.length ≤ 1 ∨ missing ≠ [] ∨ route_cauldrons = [] then
      if a.cauldrons_visited ≠ []
      then "market" :: a.cauldrons_visited ++ ["market"]
      else a.route
    else a.route
  { a with route := route, volume_collected := a.total_brew_collected }

/-- `create_daily_schedule(date)` with its fetched inputs as arguments:
absent cauldron or market reference data (and an empty forecast list) yield
the empty plan; an uncaught forecaster `ZeroDivisionError` propagates as
`.error`. -/
def create_daily_schedule (hav : ℚ → ℚ → ℚ → ℚ → ℚ) (date : String)
    (cauldrons : List Cauldron) (couriers : List Courier)
    (market : Option Market) (network_data : List NetworkEdge)
    (df : List Reading) (now : ℚ) : Except Unit SchedulePlan :=
  if cauldrons = [] ∨ market = none then
    .ok { date := date
          couriers_needed := 0
          assignments := []
          unassigned_pickups := none
          total_distance_km := ((0 : ℚ) : WithTop ℚ) }
  else
    let g := build_graph hav network_data cauldrons (market.getD ⟨0, 0⟩)
    let cauldron_info := cauldrons.foldl (fun m c => alInsert m c.id c) []
    match get_forecast df cauldron_info now with
    | .error e => .error e
    | .ok forecasts =>
      if forecasts = [] then
        .ok { date := date
              couriers_needed := 0
              assignments := []
              unassigned_pickups := none
              total_distance_km := ((0 : ℚ) : WithTop ℚ) }
      else
        let cat := categorize_cauldrons forecasts cauldrons
        let hr := cat.1.foldl (highRateStep hav g couriers) ([], 0)
        let low_rate_pickups := identify_low_rate_pickups cat.2
        let pg := piggybackFold hav g hr.1 low_rate_pickups
        let nw := newWitchLoop hav g couriers pg.2.length pg.2 hr.2 pg.1
        let formatted := nw.1.map formatAssignment
        let total_distance := (nw.1.map Assignment.distance_km).foldl
          (· + ·) ((0 : ℚ) : WithTop ℚ)
        .ok { date := date
              couriers_needed := nw.1.length
              assignments := formatted
              unassigned_pickups := some nw.2.length
              total_distance_km := total_distance }

/-- C9: whenever the cauldron reference data or the market reference data is
absent, `create_daily_schedule` returns the explicitly empty plan — zero
couriers needed, an empty assignment list, zero total distance — rather than
an error. -/
theorem C9_empty_refs_yield_empty_plan (hav : ℚ → ℚ → ℚ → ℚ → ℚ)
    (date : String) (cauldrons : List Cauldron) (couriers : List Courier)
    (market : Option Market) (network_data : List NetworkEdge)
    (df : List Reading) (now : ℚ)
    (h : cauldrons = [] ∨ market = none) :
    create_daily_schedule hav date cauldrons couriers market network_data
        df now =
      .ok { date := date
            couriers_needed := 0
            assignments := []
            unassigned_pickups := none
            total_distance_km := ((0 : ℚ) : WithTop ℚ) } := by
  rw [create_daily_schedule, if_pos h]

def c9Hav : ℚ → ℚ → ℚ → ℚ → ℚ := fun _ _ _ _ => 0

theorem C9_empty_refs_yield_empty_plan_witness :
    (([] : List Cauldron) = [] ∨ (some ⟨0, 0⟩ : Option Market) = none) ∧
      create_daily_schedule c9Hav "2025-06-01" [] [] (some ⟨0, 0⟩) [] [] 0 =
        .ok { date := "2025-06-01"
              couriers_needed := 0
              assignments := []
              unassigned_pickups := none
              total_distance_km := ((0 : ℚ) : WithTop ℚ) } :=
  ⟨Or.inl rfl,
    C9_empty_refs_yield_empty_plan c9Hav "2025-06-01" [] [] (some ⟨0, 0⟩)
      [] [] 0 (Or.inl rfl)⟩

/-- The greedy capacity filter never exceeds the capacity it is given. -/
theorem collectLoop_le_cap (cap : ℚ) (vols : List (String × ℚ)) :
    ∀ (cs : List String) (v : ℚ), v ≤ cap →
      (collectLoop cap vols cs v).2 ≤ cap := by
  intro cs
  induction cs with
  | nil => intro v hv; exact hv
  | cons c rest ih =>
    intro v hv
    rw [collectLoop]
    by_cases h : v + (alLookup vols c).getD 0 ≤ cap
    · rw [if_pos h]
      exact ih _ h
    · rw [if_neg h]
      exact hv

/-- The capacity-aware wrapper itself respects its capacity: the volume it
reports collecting never exceeds `courier_capacity` (the bug of C1 lies in
the scheduler's piggyback step, not here). -/
theorem optimize_courier_route_within_capacity (hav : ℚ → ℚ → ℚ → ℚ → ℚ)
    (g : Graph) (cauldrons_to_visit : List String) (courier_capacity : ℚ)
    (cauldron_volumes : List (String × ℚ)) (hcap : 0 ≤ courier_capacity) :
    (optimize_courier_route hav g cauldrons_to_visit courier_capacity
      cauldron_volumes).2.2.2 ≤ courier_capacity := by
  rw [optimize_courier_route]
  by_cases h : (collectLoop courier_capacity cauldron_volumes
      cauldrons_to_visit 0).1 = []
  · rw [if_pos h]
    exact hcap
  · rw [if_neg h]
    exact collectLoop_le_cap courier_capacity cauldron_volumes
      cauldrons_to_visit 0 hcap

def c1Hav : ℚ → ℚ → ℚ → ℚ → ℚ := fun _ _ _ _ => 0

/-- High-rate cauldron `H`: 1000 L capacity, rising 90 → 100 L over one
hour (brew rate 10 L/h). -/
def c1Cauldrons : List Cauldron :=
  [⟨"H", 0, 0, some 1000⟩, ⟨"L", 0, 0, some 64⟩]

def c1Network : List NetworkEdge :=
  [⟨"market", "H", 10, some 1⟩, ⟨"market", "L", 10, some 1⟩]

/-- `H` rises 90 → 100 (high-rate, 10 L/h); `L` sits flat at 60 of 64 L
(93.75 %, a 51.2 L low-rate pickup). -/
def c1Readings : List Reading :=
  [⟨0, "H", 90⟩, ⟨0, "L", 60⟩, ⟨1, "H", 100⟩, ⟨1, "L", 60⟩]

/-- C1: refuted by the code — the piggyback step of `create_daily_schedule`
re-optimizes an extended route with *estimated* volumes (50 L per already
assigned high-rate stop) instead of the witch's actual load, so the second
high-rate witch (30 L of `H`) that absorbs the 51.2 L pickup of `L` is
recorded as collecting 50 + 51.2 = 101.2 L, exceeding the fixed 100 L witch
capacity that the spare-capacity test was meant to protect. -/
theorem C1_piggyback_exceeds_capacity :
    (create_daily_schedule c1Hav "2025-06-01" c1Cauldrons [] (some ⟨0, 0⟩)
          c1Network c1Readings 1).map
        (fun p => p.assignments.map Assignment.volume_collected) =
      .ok [70, 506 / 5] ∧ (100 : ℚ) < 506 / 5 :=
  ⟨by with_unfolding_all rfl, by norm_num⟩
